import Mathlib

/-!
Verification of the ESP32-S2 hardware-accelerated multi-precision integer
driver (mbedTLS `MBEDTLS_MPI_*_ALT` port).  The driver marshals mbedTLS
big numbers into the RSA accelerator's memory-mapped operand blocks,
derives Montgomery parameters, and composes three exposed operations:
plain multiply (with overflow decomposition), modular multiply and
modular exponentiation.

The software representation and the driver's control flow are embedded
from the C source.  The mbedTLS big-number container (an external
collaborator) and the RSA accelerator itself (hardware, no source in the
repository) are modelled from the specification; each such definition is
marked in its doc comment.

Machine integers: limbs are 32-bit words, modelled as `Nat` with explicit
bounds (`WfWords`); `size_t` register arithmetic is reduced `% 2 ^ 32`
where wraparound matters.
-/

/-- An mbedTLS multi-precision integer: sign `s` (±1) and the limb array
`p`, least-significant word first.  `p.length` plays the role of the
allocated limb count `n`; significant words are computed on demand. -/
structure Mpi where
  s : Int
  p : List Nat
deriving DecidableEq

/-- All limbs of a word list are genuine 32-bit words. -/
def WfWords (l : List Nat) : Prop := ∀ a ∈ l, a < 2 ^ 32

/-- Magnitude denoted by a little-endian word list. -/
def magVal : List Nat → Nat
| [] => 0
| a :: t => a + 2 ^ 32 * magVal t

/-- Signed value of an `Mpi` (sign times magnitude). -/
def Mpi.val (m : Mpi) : Int := m.s * (magVal m.p : Int)

/-- `bits_to_words` from the source: convert a bit count to a word count. -/
def bits_to_words (bits : Nat) : Nat := (bits + 31) / 32

/-- `mpi_words` from the source: number of words actually used to
represent an mpi number (index of the highest non-zero limb). -/
def sigWords : List Nat → Nat
| [] => 0
| a :: t =>
  if sigWords t = 0 then (if a = 0 then 0 else 1) else sigWords t + 1

/-- `mpi_words` applied to an `Mpi` (the source's function takes the
whole bignum and scans its limb array downwards). -/
def mpi_words (m : Mpi) : Nat := sigWords m.p

/-- Fuelled bit-length of a natural number: smallest `k` with `n < 2 ^ k`,
computed with `fuel` halving steps (exact whenever `n < 2 ^ fuel`). -/
def bitsF : Nat → Nat → Nat
| 0, _ => 0
| fuel + 1, n => if n = 0 then 0 else bitsF fuel (n / 2) + 1

/-- Modelled from the spec: `mbedtls_mpi_bitlen` of the external MPI
container — the number of bits of the magnitude (0 for the value 0),
computed limb-wise as the library does: 32 bits per limb below the top
non-zero limb, plus the bit count of that limb. -/
def mbedtls_mpi_bitlen (m : Mpi) : Nat :=
  if sigWords m.p = 0 then 0
  else 32 * (sigWords m.p - 1) + bitsF 32 (m.p.getD (sigWords m.p - 1) 0)

/-- `mpi_to_mem_block` from the source: copy `min num_words n` limbs of
the bignum into the operand block and zero-fill the remaining words.
The block always holds exactly `num_words` words. -/
def mpi_to_mem_block (m : Mpi) (num_words : Nat) : List Nat :=
  m.p.take num_words ++ List.replicate (num_words - min num_words m.p.length) 0

/-- mbedTLS error code `MBEDTLS_ERR_MPI_BAD_INPUT_DATA`. -/
def MBEDTLS_ERR_MPI_BAD_INPUT_DATA : Int := -4
/-- mbedTLS error code `MBEDTLS_ERR_MPI_NOT_ACCEPTABLE`. -/
def MBEDTLS_ERR_MPI_NOT_ACCEPTABLE : Int := -14
/-- mbedTLS error code `MBEDTLS_ERR_MPI_ALLOC_FAILED`. -/
def MBEDTLS_ERR_MPI_ALLOC_FAILED : Int := -16

/-- `mem_block_to_mpi` from the source: grow `x` to at least `num_words`
limbs (the grow is the only step that can fail — allocation; `ok` is the
external allocator's verdict, and a grow that needs no new storage never
fails), copy `num_words` words from the block, zero any remaining limbs.
Returns the mbedTLS status and the updated bignum (unchanged on failure). -/
def mem_block_to_mpi (ok : Bool) (x : Mpi) (block : List Nat) (num_words : Nat) :
    Int × Mpi :=
  if num_words ≤ x.p.length ∨ ok then
    (0, ⟨x.s, block.take num_words ++ List.replicate (x.p.length - num_words) 0⟩)
  else
    (MBEDTLS_ERR_MPI_ALLOC_FAILED, x)

/-- One Dussé–Kaliski refinement step at bit position `i`, with
`pw = 2 ^ (i - 1)`: accumulate `pw` into `t` when `N * t mod 2 ^ i` has
bit `i - 1` set.  (`uint64_t` intermediates in the source never overflow:
`N, t < 2 ^ 32`.) -/
def dk_step (N t pw : Nat) : Nat :=
  if pw ≤ N * t % (2 * pw) then t + pw else t

/-- The Dussé–Kaliski loop of `modular_inverse`: `r` iterations starting
from accumulator `t` and bit weight `pw` (the source runs `i = 2..32`,
i.e. 31 iterations from `t = 1`, `pw = 2`). -/
def dk_go (N : Nat) : Nat → Nat → Nat → Nat
| 0, t, _ => t
| r + 1, t, pw => dk_go N r (dk_step N t pw) (2 * pw)

/-- `modular_inverse` from the source: the 32-bit constant
`N' = 2 ^ 32 - t` derived from the least-significant limb of `M` by the
fixed 31-iteration Dussé–Kaliski loop. -/
def modular_inverse (M : Mpi) : Nat :=
  (2 ^ 32 - dk_go (M.p.headD 0) 31 1 2) % 2 ^ 32

/-- Little-endian decomposition of `v` into exactly `n` 32-bit words
(how a value sits in an `n`-word hardware block). -/
def natToWords : Nat → Nat → List Nat
| 0, _ => []
| n + 1, v => v % 2 ^ 32 :: natToWords n (v / 2 ^ 32)

/-- Reduced power `b ^ e mod m` (a closed form the kernel can evaluate
on the 4096-bit-class literals the claims use). -/
def powMod (b e m : Nat) : Nat := b ^ e % m

/-- Modelled from the spec: the accelerator's Montgomery modular-multiply
operation (the peripheral itself has no source in the repository).  With
the operand blocks holding `M`, `X`, `Y`, `Rinv` at width `num_words` and
the `M'` register loaded with `-M⁻¹ mod 2 ^ 32`, the engine chains two
Montgomery multiplications, producing `X·Y·Rinv·R⁻² mod M` in `[0, M)`
where `R = 2 ^ (32·num_words)`; `R⁻¹ mod M` is realised executably as
`((M+1)/2) ^ (32·num_words) mod M`, exact for odd `M`. -/
def hw_mod_mult (M X Y Rinv num_words : Nat) : Nat :=
  X * Y * Rinv * powMod ((M + 1) / 2) (64 * num_words) M % M

/-- Modelled from the spec: the accelerator's plain-multiply operation —
the double-width `Z` block receives the exact product of the `X` block
and the (left-positioned) `Y` block. -/
def hw_mult (X Y : Nat) : Nat := X * Y

/-- Modelled from the spec: the accelerator's sliding-window modular
exponentiation — with correctly derived `Rinv` and `M'` loaded, the `Z`
block receives `X ^ Y mod M` (software only supplies inputs and reads
the result). -/
def hw_modexp (M X Y : Nat) : Nat := X ^ Y % M

/-- Modelled from the spec: `calculate_rinv` — `RR = 2 ^ (2·num_bits)`
built by `mbedtls_mpi_set_bit`, reduced by the external collaborator
`mbedtls_mpi_mod_mpi` (value-level result for a positive modulus). -/
def calculate_rinv (M : Mpi) (num_words : Nat) : Nat :=
  2 ^ (2 * (num_words * 32)) % magVal M.p

/-- mbedTLS error code `MBEDTLS_ERR_MPI_NEGATIVE_VALUE`. -/
def MBEDTLS_ERR_MPI_NEGATIVE_VALUE : Int := -10
/-- mbedTLS error code `MBEDTLS_ERR_MPI_DIVISION_BY_ZERO`. -/
def MBEDTLS_ERR_MPI_DIVISION_BY_ZERO : Int := -12

/-- Canonical `Mpi` carrying the signed value `v` in a `w`-limb array
(enough limbs must be requested for the magnitude to fit). -/
def mpiOfVal (v : Int) (w : Nat) : Mpi :=
  ⟨if v < 0 then -1 else 1, natToWords w v.natAbs⟩

/-- Modelled from the spec: the external container's exact signed
addition `mbedtls_mpi_add_mpi`, at value level (the result array is
sized to make the sum always fit). -/
def mpi_add_mpi (a b : Mpi) : Mpi :=
  mpiOfVal (a.val + b.val) (a.p.length + b.p.length + 1)

/-- Modelled from the spec: `mbedtls_mpi_lset` — store a single-limb
signed value, zeroing the remaining allocated limbs. -/
def mpi_lset (Z0 : Mpi) (z : Int) : Mpi :=
  ⟨if z < 0 then -1 else 1, z.natAbs % 2 ^ 32 :: List.replicate (Z0.p.length - 1) 0⟩

/-- Modelled from the spec: `mbedtls_mpi_grow` — extend the limb array
with zero limbs up to `w`; a grow that needs new storage succeeds only
when the external allocator (`ok`) does. -/
def mpi_grow (ok : Bool) (Z0 : Mpi) (w : Nat) : Mpi :=
  if w ≤ Z0.p.length ∨ ok then ⟨Z0.s, Z0.p ++ List.replicate (w - Z0.p.length) 0⟩
  else Z0

/-- Result of `esp_mpi_mul_mpi_mod`: mbedTLS status, the output bignum,
whether the peripheral was acquired, and the value written to the
`RSA_SEARCH_POS_REG` register (meaningful only when hardware ran). -/
structure MulModResult where
  ret : Int
  Z : Mpi
  hw_acquired : Bool
  search_pos : Nat
deriving DecidableEq

/-- The operand width chosen by `esp_mpi_mul_mpi_mod`:
`MAX(MAX(m_words, x_words), y_words)`. -/
def esp_mpi_mulmod_num_words (X Y M : Mpi) : Nat :=
  max (max (mpi_words M) (mpi_words X)) (mpi_words Y)

/-- `esp_mpi_mul_mpi_mod` from the source: `Z = (X * Y) mod M` on the
accelerator.  Width check, Montgomery parameter derivation, operand
marshalling at `num_words`, the search-position register written as the
32-bit `size_t` value `y_bits - 1`, one hardware Montgomery multiply,
and read-back at `m_words` — whose status the code discards (the final
`ret` is the one left by the successful parameter-derivation chain).
`Z`'s sign limb is never touched.  (`calculate_rinv` fails for a
non-positive modulus via the external reduction, modelled by the two
mbedTLS error codes of `mbedtls_mpi_mod_mpi`.) -/
def esp_mpi_mul_mpi_mod (ok : Bool) (Z0 X Y M : Mpi) : MulModResult :=
  let y_bits := mbedtls_mpi_bitlen Y
  let m_words := mpi_words M
  let num_words := esp_mpi_mulmod_num_words X Y M
  if 4096 < num_words * 32 then ⟨MBEDTLS_ERR_MPI_NOT_ACCEPTABLE, Z0, false, 0⟩
  else if M.val ≤ 0 then
    ⟨if M.val = 0 then MBEDTLS_ERR_MPI_DIVISION_BY_ZERO
      else MBEDTLS_ERR_MPI_NEGATIVE_VALUE, Z0, false, 0⟩
  else
    let rinv := calculate_rinv M num_words
    let sp := (y_bits + (2 ^ 32 - 1)) % 2 ^ 32
    let hwZ := hw_mod_mult (magVal (mpi_to_mem_block M num_words))
        (magVal (mpi_to_mem_block X num_words))
        (magVal (mpi_to_mem_block Y num_words))
        (rinv % 2 ^ (32 * num_words)) num_words
    let rz := mem_block_to_mpi ok Z0 (natToWords num_words hwZ) m_words
    ⟨0, rz.2, true, sp⟩

/-- Result of `mbedtls_mpi_exp_mod`: mbedTLS status, output bignum, and
whether the peripheral was acquired. -/
structure ExpModResult where
  ret : Int
  Z : Mpi
  hw_acquired : Bool
deriving DecidableEq

/-- The operand width chosen by `mbedtls_mpi_exp_mod`:
`MAX(m_words, MAX(x_words, y_words))`. -/
def mbedtls_exp_mod_num_words (X Y M : Mpi) : Nat :=
  max (mpi_words M) (max (mpi_words X) (mpi_words Y))

/-- `mbedtls_mpi_exp_mod` from the source: `Z = X ^ Y mod M` on the
accelerator.  Validation order as in the code: reject a non-positive or
even modulus, reject a negative exponent, short-circuit `Y = 0` to
`Z = 1` (via `mbedtls_mpi_lset`, whose grow can fail), reject widths
over the 4096-bit ceiling; only then is hardware touched.  `Rc` is the
optional caller-cached `Rinv` (`none` = NULL pointer; an empty limb
array means an empty cache to fill).  After read-back at `m_words`, the
sign correction for negative `X` with odd `Y` sets `Z` negative and adds
`M` — that `MBEDTLS_MPI_CHK` overwrites `ret`, so a read-back failure is
only propagated on the non-negative branch. -/
def mbedtls_mpi_exp_mod (ok : Bool) (Z0 X Y M : Mpi) (Rc : Option Mpi) :
    ExpModResult :=
  let m_words := mpi_words M
  let num_words := mbedtls_exp_mod_num_words X Y M
  if M.val ≤ 0 ∨ (M.p.headD 0) % 2 = 0 then
    ⟨MBEDTLS_ERR_MPI_BAD_INPUT_DATA, Z0, false⟩
  else if Y.val < 0 then ⟨MBEDTLS_ERR_MPI_BAD_INPUT_DATA, Z0, false⟩
  else if Y.val = 0 then
    if 1 ≤ Z0.p.length ∨ ok then ⟨0, mpi_lset Z0 1, false⟩
    else ⟨MBEDTLS_ERR_MPI_ALLOC_FAILED, Z0, false⟩
  else if 4096 < num_words * 32 then ⟨MBEDTLS_ERR_MPI_NOT_ACCEPTABLE, Z0, false⟩
  else
    let rinv := match Rc with
      | none => calculate_rinv M num_words
      | some r => if r.p = [] then calculate_rinv M num_words else magVal r.p
    let raw := hw_modexp (magVal (mpi_to_mem_block M num_words))
        (magVal (mpi_to_mem_block X num_words))
        (magVal (mpi_to_mem_block Y num_words))
    let _ := rinv % 2 ^ (32 * num_words)
    let rz := mem_block_to_mpi ok Z0 (natToWords num_words raw) m_words
    if X.s = -1 ∧ (Y.p.headD 0) % 2 = 1 then
      ⟨0, mpi_add_mpi M ⟨-1, rz.2.p⟩, true⟩
    else
      ⟨rz.1, ⟨1, rz.2.p⟩, true⟩

/-- Result of `mbedtls_mpi_mul_mpi` and its helpers: mbedTLS status and
the output bignum. -/
structure MulResult where
  ret : Int
  Z : Mpi
deriving DecidableEq

/-- The all-ones artificial modulus block written by
`mpi_mult_mpi_failover_mod_mult`: `num_words` limbs of `UINT32_MAX`,
i.e. the value `2 ^ (32*num_words) - 1`. -/
def failover_M_block (num_words : Nat) : List Nat :=
  List.replicate num_words (2 ^ 32 - 1)

/-- The `Rinv` block written by `mpi_mult_mpi_failover_mod_mult`: the
word 1 followed by zeros — the value 1. -/
def failover_Rinv_block (num_words : Nat) : List Nat :=
  1 :: List.replicate (num_words - 1) 0

/-- `mpi_mult_mpi_failover_mod_mult` from the source: plain multiply
disguised as a hardware Montgomery modular multiply with all-ones
modulus, `Mprime = 1`, `Rinv = 1`, at width `num_words` (the caller
passes `z_words`).  The read-back status is discarded and the result's
sign limb is never set. -/
def mpi_mult_mpi_failover_mod_mult (ok : Bool) (Z X Y : Mpi) (num_words : Nat) :
    MulResult :=
  let hwZ := hw_mod_mult (magVal (failover_M_block num_words))
      (magVal (mpi_to_mem_block X num_words))
      (magVal (mpi_to_mem_block Y num_words))
      (magVal (failover_Rinv_block num_words)) num_words
  let rz := mem_block_to_mpi ok Z (natToWords num_words hwZ) num_words
  ⟨0, rz.2⟩

/-- The lower storage-sharing view `Yp` sliced by
`mpi_mult_mpi_overlong`: the low `words_slice = y_words / 2` limbs of
`Y` (same array, `n = words_slice`). -/
def mpi_mult_mpi_overlong_Yp (Y : Mpi) (y_words : Nat) : Mpi :=
  ⟨Y.s, Y.p.take (y_words / 2)⟩

/-- The upper storage-sharing view `Ypp` sliced by
`mpi_mult_mpi_overlong`: the remaining `y_words - y_words/2` limbs of
`Y`, right-shifted (the view's array starts `words_slice` limbs into
`Y`'s array). -/
def mpi_mult_mpi_overlong_Ypp (Y : Mpi) (y_words : Nat) : Mpi :=
  ⟨Y.s, (Y.p.drop (y_words / 2)).take (y_words - y_words / 2)⟩

/-- `mpi_mult_mpi_overlong` from the source: split the longer operand
`Y` (of `y_words` significant words) into the lower `y_words / 2` limbs
`Yp` and the remaining upper limbs `Ypp`, both storage-sharing views;
compute `Ztemp = X * Yp` and `Z = X * Ypp` through the callback `recur`
(the recursive entry into `mbedtls_mpi_mul_mpi`), shift `Z` left by the
slice width and add `Ztemp`.  Any failing step unwinds through
`cleanup`. -/
def mpi_mult_mpi_overlong (recur : Mpi → Mpi → Mpi → Option MulResult)
    (Z X Y : Mpi) (y_words _z_words : Nat) : Option MulResult :=
  let words_slice := y_words / 2
  let Yp : Mpi := mpi_mult_mpi_overlong_Yp Y y_words
  let Ypp : Mpi := mpi_mult_mpi_overlong_Ypp Y y_words
  match recur ⟨1, []⟩ X Yp with
  | none => none
  | some r1 =>
    if r1.ret ≠ 0 then some ⟨r1.ret, Z⟩
    else
      match recur Z X Ypp with
      | none => none
      | some r2 =>
        if r2.ret ≠ 0 then some ⟨r2.ret, r2.Z⟩
        else some ⟨0, mpi_add_mpi ⟨r2.Z.s, List.replicate words_slice 0 ++ r2.Z.p⟩ r1.Z⟩

/-- `mbedtls_mpi_mul_mpi` from the source, with a fuel bound on the
recursion depth (`none` exactly when the fuel runs out; the source
recursion is the subject of claim C9).  Fast exits for zero and ±1
operands, the direct hardware multiply for `num_words*32 ≤ 2048`
(result sign set to the product of the operand signs after read-back),
the failover modular multiply for `z_words*32 ≤ 4096`, and the recursive
split otherwise, always slicing the longer operand. -/
def mbedtls_mpi_mul_mpi_f : Nat → Bool → Mpi → Mpi → Mpi → Option MulResult
| 0, _, _, _, _ => none
| fuel + 1, ok, Z0, X, Y =>
  let x_bits := mbedtls_mpi_bitlen X
  let y_bits := mbedtls_mpi_bitlen Y
  let x_words := bits_to_words x_bits
  let y_words := bits_to_words y_bits
  let num_words := max x_words y_words
  let z_words := x_words + y_words
  if x_bits = 0 ∨ y_bits = 0 then
    some ⟨0, if 1 ≤ Z0.p.length ∨ ok then mpi_lset Z0 0 else Z0⟩
  else if x_bits = 1 then some ⟨0, ⟨Y.s * X.s, Y.p⟩⟩
  else if y_bits = 1 then some ⟨0, ⟨X.s * Y.s, X.p⟩⟩
  else if 2048 < num_words * 32 then
    if z_words * 32 ≤ 4096 then
      some (mpi_mult_mpi_failover_mod_mult ok Z0 X Y z_words)
    else
      let Zg := mpi_grow ok Z0 z_words
      if x_words < y_words then
        mpi_mult_mpi_overlong (mbedtls_mpi_mul_mpi_f fuel ok) Zg X Y y_words z_words
      else
        mpi_mult_mpi_overlong (mbedtls_mpi_mul_mpi_f fuel ok) Zg Y X x_words z_words
  else
    let hwZ := hw_mult (magVal (mpi_to_mem_block X num_words))
        (magVal (mpi_to_mem_block Y num_words))
    let rz := mem_block_to_mpi ok Z0 (natToWords (2 * num_words) hwZ) z_words
    some ⟨rz.1, ⟨X.s * Y.s, rz.2.p⟩⟩

/-! ### Word-list arithmetic lemmas -/

theorem magVal_replicate_zero (k : Nat) : magVal (List.replicate k 0) = 0 := by
  induction k with
  | zero => rfl
  | succ k ih => simp [List.replicate_succ, magVal, ih]

theorem magVal_append_zeros (l : List Nat) (k : Nat) :
    magVal (l ++ List.replicate k 0) = magVal l := by
  induction l with
  | nil => simpa [magVal] using magVal_replicate_zero k
  | cons a t ih => simp [magVal, ih]

theorem magVal_take_add_drop (k : Nat) (l : List Nat) :
    magVal l = magVal (l.take k) + 2 ^ (32 * k) * magVal (l.drop k) := by
  induction l generalizing k with
  | nil => simp [magVal]
  | cons a t ih =>
    cases k with
    | zero => simp [magVal]
    | succ k =>
      have h := ih k
      simp only [List.take_succ_cons, List.drop_succ_cons, magVal]
      rw [h, show 32 * (k + 1) = 32 + 32 * k by ring, pow_add]
      ring

theorem wfWords_take (l : List Nat) (k : Nat) (h : WfWords l) :
    WfWords (l.take k) := by
  intro a ha
  exact h a (List.mem_of_mem_take ha)

theorem wfWords_drop (l : List Nat) (k : Nat) (h : WfWords l) :
    WfWords (l.drop k) := by
  intro a ha
  exact h a (List.mem_of_mem_drop ha)

theorem magVal_lt (l : List Nat) (h : WfWords l) :
    magVal l < 2 ^ (32 * l.length) := by
  induction l with
  | nil => simp [magVal]
  | cons a t ih =>
    have ha : a < 2 ^ 32 := h a (List.mem_cons_self a t)
    have ht : magVal t < 2 ^ (32 * t.length) :=
      ih (fun b hb => h b (List.mem_cons_of_mem a hb))
    have hlen : 32 * (a :: t).length = 32 + 32 * t.length := by
      simp [List.length_cons]; ring
    rw [hlen, pow_add]
    simp only [magVal]
    nlinarith

theorem magVal_take (l : List Nat) (k : Nat) (h : WfWords l) :
    magVal (l.take k) = magVal l % 2 ^ (32 * k) := by
  have hsplit := magVal_take_add_drop k l
  have hlt : magVal (l.take k) < 2 ^ (32 * k) := by
    have h1 := magVal_lt (l.take k) (wfWords_take l k h)
    have h2 : (l.take k).length ≤ k := l.length_take_le k
    calc magVal (l.take k) < 2 ^ (32 * (l.take k).length) := h1
    _ ≤ 2 ^ (32 * k) := Nat.pow_le_pow_right (by norm_num) (by omega)
  rw [hsplit, Nat.add_mul_mod_self_left, Nat.mod_eq_of_lt hlt]

theorem sigWords_le_length (l : List Nat) : sigWords l ≤ l.length := by
  induction l with
  | nil => simp [sigWords]
  | cons a t ih =>
    simp only [sigWords, List.length_cons]
    split
    · split <;> omega
    · omega

theorem sigWords_eq_zero_iff (l : List Nat) : sigWords l = 0 ↔ magVal l = 0 := by
  induction l with
  | nil => simp [sigWords, magVal]
  | cons a t ih =>
    simp only [sigWords, magVal]
    constructor
    · intro h
      by_cases hst : sigWords t = 0
      · have hmt : magVal t = 0 := ih.mp hst
        simp [hst] at h
        by_cases ha : a = 0
        · simp [ha, hmt]
        · simp [ha] at h
      · simp [hst] at h
    · intro h
      have ha : a = 0 := by omega
      have hmt : magVal t = 0 := by omega
      simp [ih.mpr hmt, ha]

theorem magVal_drop_eq_zero (l : List Nat) (k : Nat) (h : sigWords l ≤ k) :
    magVal (l.drop k) = 0 := by
  induction l generalizing k with
  | nil => simp [magVal]
  | cons a t ih =>
    cases k with
    | zero =>
      have h0 : sigWords (a :: t) = 0 := by omega
      simpa using (sigWords_eq_zero_iff (a :: t)).mp h0
    | succ k =>
      simp only [List.drop_succ_cons]
      apply ih
      simp only [sigWords] at h
      split at h
      · omega
      · omega

theorem magVal_take_of_sig_le (l : List Nat) (k : Nat) (h : sigWords l ≤ k) :
    magVal (l.take k) = magVal l := by
  have hsplit := magVal_take_add_drop k l
  rw [magVal_drop_eq_zero l k h] at hsplit
  omega

theorem magVal_lt_sig (l : List Nat) (h : WfWords l) :
    magVal l < 2 ^ (32 * sigWords l) := by
  have h1 : magVal (l.take (sigWords l)) = magVal l :=
    magVal_take_of_sig_le l (sigWords l) le_rfl
  have h2 := magVal_lt (l.take (sigWords l)) (wfWords_take l (sigWords l) h)
  have h3 : (l.take (sigWords l)).length ≤ sigWords l := l.length_take_le _
  calc magVal l = magVal (l.take (sigWords l)) := h1.symm
  _ < 2 ^ (32 * (l.take (sigWords l)).length) := h2
  _ ≤ 2 ^ (32 * sigWords l) := Nat.pow_le_pow_right (by norm_num) (by omega)

theorem le_magVal_sig (l : List Nat) (h : 1 ≤ sigWords l) :
    2 ^ (32 * (sigWords l - 1)) ≤ magVal l := by
  induction l with
  | nil => simp [sigWords] at h
  | cons a t ih =>
    simp only [sigWords] at h ⊢
    by_cases hst : sigWords t = 0
    · have hmt : magVal t = 0 := (sigWords_eq_zero_iff t).mp hst
      by_cases ha : a = 0
      · simp [hst, ha] at h
      · simp only [hst, if_true, ha, if_false, magVal]
        have h4 : 1 ≤ a := by omega
        have h5 : (2 : Nat) ^ (32 * (1 - 1)) = 1 := by norm_num
        rw [h5]
        exact le_trans h4 (Nat.le_add_right a _)
    · have h1 : 1 ≤ sigWords t := by omega
      have h2 := ih h1
      simp only [hst, if_false, magVal]
      have h3 : 32 * (sigWords t + 1 - 1) = 32 + 32 * (sigWords t - 1) := by omega
      rw [h3, pow_add]
      nlinarith

/-! ### Hardware-block encoding lemmas -/

theorem natToWords_length (n v : Nat) : (natToWords n v).length = n := by
  induction n generalizing v with
  | zero => rfl
  | succ n ih => simp [natToWords, ih]

theorem magVal_natToWords (n v : Nat) :
    magVal (natToWords n v) = v % 2 ^ (32 * n) := by
  induction n generalizing v with
  | zero => simp [natToWords, magVal, Nat.mod_one]
  | succ n ih =>
    simp only [natToWords, magVal, ih]
    rw [show 32 * (n + 1) = 32 + 32 * n by ring, pow_add, Nat.mod_mul]

theorem natToWords_take (n r v : Nat) (h : r ≤ n) :
    (natToWords n v).take r = natToWords r v := by
  induction n generalizing r v with
  | zero =>
    have h0 : r = 0 := by omega
    simp [h0, natToWords]
  | succ n ih =>
    cases r with
    | zero => simp [natToWords]
    | succ r =>
      simp only [natToWords, List.take_succ_cons, List.cons.injEq, true_and]
      exact ih r (v / 2 ^ 32) (by omega)

theorem wfWords_natToWords (n v : Nat) : WfWords (natToWords n v) := by
  induction n generalizing v with
  | zero => intro a ha; simp [natToWords] at ha
  | succ n ih =>
    intro a ha
    simp only [natToWords, List.mem_cons] at ha
    rcases ha with h | h
    · subst h; exact Nat.mod_lt _ (by norm_num)
    · exact ih (v / 2 ^ 32) a h

theorem wfWords_append (l l' : List Nat) (h : WfWords l) (h' : WfWords l') :
    WfWords (l ++ l') := by
  intro a ha
  rcases List.mem_append.mp ha with hm | hm
  · exact h a hm
  · exact h' a hm

theorem wfWords_replicate_zero (k : Nat) : WfWords (List.replicate k 0) := by
  intro a ha
  have := List.eq_of_mem_replicate ha
  omega

theorem wfWords_block (m : Mpi) (w : Nat) (h : WfWords m.p) :
    WfWords (mpi_to_mem_block m w) :=
  wfWords_append _ _ (wfWords_take _ _ h) (wfWords_replicate_zero _)

/-- Value held by an operand block: the bignum's magnitude truncated to
the block width. -/
theorem magVal_block_mod (m : Mpi) (w : Nat) (h : WfWords m.p) :
    magVal (mpi_to_mem_block m w) = magVal m.p % 2 ^ (32 * w) := by
  unfold mpi_to_mem_block
  rw [magVal_append_zeros, magVal_take m.p w h]

/-- A block wide enough for all significant words holds the full
magnitude. -/
theorem magVal_block (m : Mpi) (w : Nat) (hs : sigWords m.p ≤ w) :
    magVal (mpi_to_mem_block m w) = magVal m.p := by
  unfold mpi_to_mem_block
  rw [magVal_append_zeros, magVal_take_of_sig_le m.p w hs]

/-! ### Bit-length lemmas -/

theorem bitsF_le (f n k : Nat) (h : n < 2 ^ k) : bitsF f n ≤ k := by
  induction f generalizing n k with
  | zero => simp [bitsF]
  | succ f ih =>
    simp only [bitsF]
    split
    · omega
    · rename_i hn
      have hk : k ≠ 0 := by
        intro h0
        rw [h0] at h
        omega
      have hd : n / 2 < 2 ^ (k - 1) := by
        have h2 : 2 ^ k = 2 * 2 ^ (k - 1) := by
          rw [← pow_succ']
          congr 1
          omega
        omega
      have := ih (n / 2) (k - 1) hd
      omega

theorem lt_bitsF (f n k : Nat) (hf : n < 2 ^ f) (h : 2 ^ k ≤ n) : k < bitsF f n := by
  induction f generalizing n k with
  | zero =>
    have : (1 : Nat) ≤ 2 ^ k := Nat.one_le_two_pow
    omega
  | succ f ih =>
    simp only [bitsF]
    have hn : ¬ n = 0 := by
      have : (1 : Nat) ≤ 2 ^ k := Nat.one_le_two_pow
      omega
    simp only [hn, if_false]
    cases k with
    | zero => omega
    | succ k =>
      have h1 : 2 ^ k ≤ n / 2 := by
        have h2 : 2 ^ (k + 1) = 2 * 2 ^ k := by rw [← pow_succ']
        omega
      have h3 : n / 2 < 2 ^ f := by
        have h4 : 2 ^ (f + 1) = 2 * 2 ^ f := by rw [← pow_succ']
        omega
      have := ih (n / 2) k h3 h1
      omega

theorem lt_two_pow_bitsF (f n : Nat) (h : n < 2 ^ f) : n < 2 ^ bitsF f n := by
  by_contra hc
  have := lt_bitsF f n (bitsF f n) h (by omega)
  omega

theorem bitsF_eq_zero_iff (f n : Nat) (h : n < 2 ^ f) : bitsF f n = 0 ↔ n = 0 := by
  constructor
  · intro h0
    by_contra hn
    have := lt_bitsF f n 0 h (by omega)
    omega
  · intro h0
    subst h0
    cases f <;> simp [bitsF]

theorem bitsF_le_fuel (f n : Nat) : bitsF f n ≤ f := by
  induction f generalizing n with
  | zero => simp [bitsF]
  | succ f ih =>
    simp only [bitsF]
    split
    · omega
    · have := ih (n / 2)
      omega

theorem sig_top_ne_zero (l : List Nat) (h : 1 ≤ sigWords l) :
    l.getD (sigWords l - 1) 0 ≠ 0 := by
  induction l with
  | nil => simp [sigWords] at h
  | cons a t ih =>
    simp only [sigWords] at h ⊢
    by_cases hst : sigWords t = 0
    · by_cases ha : a = 0
      · simp [hst, ha] at h
      · simp [hst, ha]
    · have h1 : 1 ≤ sigWords t := by omega
      have ih2 := ih h1
      simp only [hst, if_false]
      have he : sigWords t + 1 - 1 = (sigWords t - 1) + 1 := by omega
      rw [he, List.getD_cons_succ]
      exact ih2

theorem mbedtls_mpi_bitlen_le (m : Mpi) :
    mbedtls_mpi_bitlen m ≤ 32 * sigWords m.p := by
  unfold mbedtls_mpi_bitlen
  split
  · omega
  · have h1 := bitsF_le_fuel 32 (m.p.getD (sigWords m.p - 1) 0)
    omega

theorem mbedtls_mpi_bitlen_gt (m : Mpi) (h : 1 ≤ sigWords m.p) :
    32 * (sigWords m.p - 1) < mbedtls_mpi_bitlen m := by
  unfold mbedtls_mpi_bitlen
  rw [if_neg (by omega)]
  have h1 : m.p.getD (sigWords m.p - 1) 0 ≠ 0 := sig_top_ne_zero m.p h
  have h2 : 1 ≤ bitsF 32 (m.p.getD (sigWords m.p - 1) 0) := by
    have he : bitsF 32 (m.p.getD (sigWords m.p - 1) 0)
        = if m.p.getD (sigWords m.p - 1) 0 = 0 then 0
          else bitsF 31 (m.p.getD (sigWords m.p - 1) 0 / 2) + 1 := rfl
    rw [he, if_neg h1]
    omega
  omega

/-- The word count derived from the limb-wise bit length is exactly the
significant word count. -/
theorem bits_to_words_bitlen (m : Mpi) :
    bits_to_words (mbedtls_mpi_bitlen m) = sigWords m.p := by
  by_cases h0 : sigWords m.p = 0
  · unfold mbedtls_mpi_bitlen
    rw [if_pos h0, h0]
    rfl
  · have h1 := mbedtls_mpi_bitlen_le m
    have h2 := mbedtls_mpi_bitlen_gt m (by omega)
    unfold bits_to_words
    omega

/-- Bit length 0 characterises the zero magnitude. -/
theorem bitlen_eq_zero_iff (m : Mpi) :
    mbedtls_mpi_bitlen m = 0 ↔ magVal m.p = 0 := by
  constructor
  · intro h
    by_contra hm
    have hs : 1 ≤ sigWords m.p := by
      rcases Nat.eq_zero_or_pos (sigWords m.p) with hz | hp
      · exact absurd ((sigWords_eq_zero_iff m.p).mp hz) hm
      · exact hp
    have := mbedtls_mpi_bitlen_gt m hs
    omega
  · intro h
    unfold mbedtls_mpi_bitlen
    rw [if_pos ((sigWords_eq_zero_iff m.p).mpr h)]

/-! ### Montgomery arithmetic lemmas -/

theorem powMod_eq (b e m : Nat) : powMod b e m = b ^ e % m := rfl

/-- The Montgomery modular multiply fed with the driver-derived
`Rinv = R² mod M` (where `R = 2 ^ (32·num_words)`) produces exactly
`X·Y mod M`, for any odd modulus. -/
theorem hw_mod_mult_spec (M X Y n : Nat) (hM : M % 2 = 1) :
    hw_mod_mult M X Y (2 ^ (64 * n) % M) n = X * Y % M := by
  unfold hw_mod_mult
  rw [powMod_eq]
  have h2c : 2 * ((M + 1) / 2) = M + 1 := by omega
  have hme : (M + 1) % M = 1 % M := by
    rw [Nat.add_comm]
    exact Nat.add_mod_right 1 M
  have hcong : X * Y * (2 ^ (64 * n) % M) * (((M + 1) / 2) ^ (64 * n) % M)
      ≡ X * Y [MOD M] := by
    have e1 : (2 : Nat) ^ (64 * n) % M ≡ 2 ^ (64 * n) [MOD M] := Nat.mod_modEq _ _
    have e2 : ((M + 1) / 2) ^ (64 * n) % M ≡ ((M + 1) / 2) ^ (64 * n) [MOD M] :=
      Nat.mod_modEq _ _
    have e3 : X * Y * (2 ^ (64 * n) % M) * (((M + 1) / 2) ^ (64 * n) % M)
        ≡ X * Y * 2 ^ (64 * n) * ((M + 1) / 2) ^ (64 * n) [MOD M] :=
      ((Nat.ModEq.refl (X * Y)).mul e1).mul e2
    have e4 : X * Y * 2 ^ (64 * n) * ((M + 1) / 2) ^ (64 * n)
        = X * Y * (M + 1) ^ (64 * n) := by
      rw [mul_assoc, ← mul_pow, h2c]
    have e5 : (M + 1 : Nat) ≡ 1 [MOD M] := hme
    have e6 : X * Y * (M + 1) ^ (64 * n) ≡ X * Y * 1 ^ (64 * n) [MOD M] :=
      (Nat.ModEq.refl (X * Y)).mul (e5.pow _)
    calc X * Y * (2 ^ (64 * n) % M) * (((M + 1) / 2) ^ (64 * n) % M)
        ≡ X * Y * 2 ^ (64 * n) * ((M + 1) / 2) ^ (64 * n) [MOD M] := e3
    _ = X * Y * (M + 1) ^ (64 * n) := e4
    _ ≡ X * Y * 1 ^ (64 * n) [MOD M] := e6
    _ = X * Y := by ring
  exact hcong

/-- The failover disguise: with the all-ones modulus `2 ^ (32·n) - 1`,
`Mprime = 1` and `Rinv = 1`, the Montgomery multiply applies no real
reduction — the output is `X·Y mod (2 ^ (32·n) - 1)`, hence the exact
product whenever it fits below the modulus. -/
theorem hw_mod_mult_ones (n X Y : Nat) (hn : 1 ≤ n)
    (h : X * Y < 2 ^ (32 * n) - 1) :
    hw_mod_mult (2 ^ (32 * n) - 1) X Y 1 n = X * Y := by
  unfold hw_mod_mult
  rw [powMod_eq]
  have hpow : (2 : Nat) ^ (32 * n) = 2 * 2 ^ (32 * n - 1) := by
    rw [← pow_succ']
    congr 1
    omega
  have hM1 : (2 ^ (32 * n) - 1 + 1 : Nat) = 2 ^ (32 * n) := by
    have : (1 : Nat) ≤ 2 ^ (32 * n) := Nat.one_le_two_pow
    omega
  have hc : (2 ^ (32 * n) - 1 + 1 : Nat) / 2 = 2 ^ (32 * n - 1) := by
    rw [hM1, hpow]
    omega
  rw [hc]
  set M := (2 : Nat) ^ (32 * n) - 1 with hMdef
  have hRe1 : (2 : Nat) ^ (32 * n) ≡ 1 [MOD M] := by
    have h1 : (2 : Nat) ^ (32 * n) = M + 1 := hM1.symm
    have h2 : (M + 1 : Nat) % M = 1 % M := by
      rw [Nat.add_comm]
      exact Nat.add_mod_right 1 M
    rw [h1]
    exact h2
  have hexp : (2 ^ (32 * n - 1) : Nat) ^ (64 * n) = (2 ^ (32 * n)) ^ (64 * n - 2) := by
    rw [← pow_mul, ← pow_mul]
    congr 1
    have h1 : (32 * n - 1) * (64 * n) = 32 * n * (64 * n) - 64 * n := by
      rw [Nat.sub_mul, one_mul]
    have h2 : 32 * n * (64 * n - 2) = 32 * n * (64 * n) - 64 * n := by
      rw [Nat.mul_sub]
      congr 1
      ring
    omega
  have hcong : X * Y * 1 * ((2 ^ (32 * n - 1)) ^ (64 * n) % M) ≡ X * Y [MOD M] := by
    have e1 : ((2 ^ (32 * n - 1)) : Nat) ^ (64 * n) % M
        ≡ (2 ^ (32 * n - 1)) ^ (64 * n) [MOD M] := Nat.mod_modEq _ _
    have e2 : ((2 ^ (32 * n)) : Nat) ^ (64 * n - 2) ≡ 1 ^ (64 * n - 2) [MOD M] :=
      hRe1.pow _
    calc X * Y * 1 * ((2 ^ (32 * n - 1)) ^ (64 * n) % M)
        ≡ X * Y * 1 * ((2 ^ (32 * n - 1)) ^ (64 * n)) [MOD M] :=
          (Nat.ModEq.refl _).mul e1
    _ = X * Y * ((2 ^ (32 * n)) ^ (64 * n - 2)) := by rw [hexp]; ring
    _ ≡ X * Y * 1 ^ (64 * n - 2) [MOD M] := (Nat.ModEq.refl _).mul e2
    _ = X * Y := by ring
  have hfin : X * Y * 1 * ((2 ^ (32 * n - 1)) ^ (64 * n) % M) % M = X * Y % M :=
    hcong
  rw [hfin, Nat.mod_eq_of_lt h]

/-! ### Dussé–Kaliski loop invariant -/

/-- One refinement step lifts the inverse property from modulus `pw` to
modulus `2·pw`, for odd `N`. -/
theorem dk_step_invariant (N t pw : Nat) (hN : N % 2 = 1) (hpw : 2 ≤ pw)
    (h : N * t % pw = 1 % pw) : N * dk_step N t pw % (2 * pw) = 1 % (2 * pw) := by
  have hpw0 : 0 < pw := by omega
  have h1p : 1 % pw = 1 := Nat.mod_eq_of_lt (by omega)
  have h12p : 1 % (2 * pw) = 1 := Nat.mod_eq_of_lt (by omega)
  rw [h1p] at h
  rw [h12p]
  have hvlt : N * t % (2 * pw) < 2 * pw := Nat.mod_lt _ (by omega)
  have hvmod : N * t % (2 * pw) % pw = 1 := by
    rw [Nat.mod_mod_of_dvd _ (dvd_mul_left pw 2), h]
  have hcases : N * t % (2 * pw) = 1 ∨ N * t % (2 * pw) = pw + 1 := by
    set v := N * t % (2 * pw) with hvdef
    rcases Nat.lt_or_ge v pw with hlt | hge
    · left
      have hid : v % pw = v := Nat.mod_eq_of_lt hlt
      omega
    · right
      have h2 : v - pw < pw := by omega
      have h3 : (v - pw) % pw = 1 := by
        have h4 : (v - pw + pw) % pw = v % pw := by rw [Nat.sub_add_cancel hge]
        rw [Nat.add_mod_right] at h4
        omega
      have h5 : (v - pw) % pw = v - pw := Nat.mod_eq_of_lt h2
      omega
  unfold dk_step
  by_cases hb : pw ≤ N * t % (2 * pw)
  · have hv : N * t % (2 * pw) = pw + 1 := by omega
    simp only [hb, if_true]
    have hNt : N * t ≡ pw + 1 [MOD 2 * pw] := by
      unfold Nat.ModEq
      rw [hv]
      exact (Nat.mod_eq_of_lt (by omega)).symm
    have hNp : N * pw ≡ pw [MOD 2 * pw] := by
      have hNe : N = 2 * (N / 2) + 1 := by omega
      unfold Nat.ModEq
      calc N * pw % (2 * pw) = (pw + 2 * pw * (N / 2)) % (2 * pw) := by
            conv_lhs => rw [hNe]
            congr 1
            ring
      _ = pw % (2 * pw) := Nat.add_mul_mod_self_left pw (2 * pw) (N / 2)
    have hsum : N * (t + pw) ≡ (pw + 1) + pw [MOD 2 * pw] := by
      have := hNt.add hNp
      calc N * (t + pw) = N * t + N * pw := by ring
      _ ≡ (pw + 1) + pw [MOD 2 * pw] := this
    have hfin : ((pw + 1) + pw) % (2 * pw) = 1 := by
      have he : (pw + 1) + pw = 1 + 2 * pw := by ring
      rw [he, Nat.add_mod_right]
      omega
    calc N * (t + pw) % (2 * pw) = ((pw + 1) + pw) % (2 * pw) := hsum
    _ = 1 := hfin
  · have hv : N * t % (2 * pw) = 1 := by omega
    simp only [hb, if_false]
    exact hv

/-- The Dussé–Kaliski loop invariant: `r` iterations extend the inverse
property by `r` bits. -/
theorem dk_go_invariant (N : Nat) (hN : N % 2 = 1) :
    ∀ r t pw, 2 ≤ pw → N * t % pw = 1 % pw →
      N * dk_go N r t pw % (pw * 2 ^ r) = 1 % (pw * 2 ^ r) := by
  intro r
  induction r with
  | zero =>
    intro t pw hpw h
    simpa [dk_go] using h
  | succ r ih =>
    intro t pw hpw h
    have hstep := dk_step_invariant N t pw hN hpw h
    have := ih (dk_step N t pw) (2 * pw) (by omega) hstep
    have he : 2 * pw * 2 ^ r = pw * 2 ^ (r + 1) := by
      rw [pow_succ]
      ring
    rw [he] at this
    simpa [dk_go] using this

/-- The loop accumulator stays in `[1, pw * 2 ^ r)`. -/
theorem dk_go_bound (N : Nat) :
    ∀ r t pw, 1 ≤ t → t < pw →
      1 ≤ dk_go N r t pw ∧ dk_go N r t pw < pw * 2 ^ r := by
  intro r
  induction r with
  | zero =>
    intro t pw h1 h2
    simp only [dk_go, pow_zero, mul_one]
    omega
  | succ r ih =>
    intro t pw h1 h2
    have hstep1 : 1 ≤ dk_step N t pw := by
      unfold dk_step
      split <;> omega
    have hstep2 : dk_step N t pw < 2 * pw := by
      unfold dk_step
      split <;> omega
    have := ih (dk_step N t pw) (2 * pw) hstep1 hstep2
    have he : 2 * pw * 2 ^ r = pw * 2 ^ (r + 1) := by
      rw [pow_succ]
      ring
    rw [he] at this
    simpa [dk_go] using this

/-- Any list value is congruent to its low word modulo `2 ^ 32`. -/
theorem magVal_mod_word (l : List Nat) :
    magVal l % 2 ^ 32 = l.headD 0 % 2 ^ 32 := by
  cases l with
  | nil => rfl
  | cons a t =>
    simp only [magVal, List.headD_cons]
    exact Nat.add_mul_mod_self_left a (2 ^ 32) (magVal t)

/-- Parity of a list value is the parity of its low word. -/
theorem magVal_mod_two (l : List Nat) : magVal l % 2 = l.headD 0 % 2 := by
  cases l with
  | nil => rfl
  | cons a t =>
    simp only [magVal, List.headD_cons]
    have he : a + 2 ^ 32 * magVal t = a + 2 * (2 ^ 31 * magVal t) := by ring
    rw [he]
    exact Nat.add_mul_mod_self_left a 2 (2 ^ 31 * magVal t)

/-- For odd low word `N`, the derived constant satisfies
`N * N' ≡ -1 (mod 2 ^ 32)`. -/
theorem modular_inverse_spec (M : Mpi) (hodd : M.p.headD 0 % 2 = 1) :
    (M.p.headD 0 * modular_inverse M + 1) % 2 ^ 32 = 0 := by
  set N := M.p.headD 0 with hNdef
  have hinv := dk_go_invariant N hodd 31 1 2 (by omega) (by omega)
  have hbnd := dk_go_bound N 31 1 2 (by omega) (by omega)
  have he32 : (2 : Nat) * 2 ^ 31 = 2 ^ 32 := by norm_num
  rw [he32] at hinv hbnd
  set t := dk_go N 31 1 2 with htdef
  have hmi : modular_inverse M = 2 ^ 32 - t := by
    unfold modular_inverse
    rw [← hNdef, ← htdef]
    exact Nat.mod_eq_of_lt (by omega)
  rw [hmi]
  have hNt1 : N * t % 2 ^ 32 = 1 := by
    rw [hinv]
    norm_num
  have he : N * (2 ^ 32 - t) = 2 ^ 32 * N - t * N := by
    rw [mul_comm, Nat.sub_mul]
  rw [he]
  have hA1 : t * N % 2 ^ 32 = 1 := by rw [mul_comm]; exact hNt1
  have hA2 : t * N ≤ 2 ^ 32 * N := by
    apply Nat.mul_le_mul_right
    omega
  revert hA1 hA2
  generalize t * N = A
  intro hA1 hA2
  omega

/-- Claim C7: `modular_inverse` is a deterministic pure function of the
least-significant word of `M` — equal low words give equal constants —
and for an odd modulus the constant `N'` satisfies
`M * N' ≡ -1 (mod 2 ^ 32)` (stated both for the low word `N` and for the
full magnitude of `M`), computed by the fixed 31-iteration
Dussé–Kaliski loop with final result `2 ^ 32 - t`. -/
theorem C7_modular_inverse_deterministic_and_correct (M M' : Mpi) :
    (M.p.headD 0 = M'.p.headD 0 → modular_inverse M = modular_inverse M') ∧
    (M.p.headD 0 % 2 = 1 →
      (M.p.headD 0 * modular_inverse M + 1) % 2 ^ 32 = 0) ∧
    (magVal M.p % 2 = 1 →
      (magVal M.p * modular_inverse M + 1) % 2 ^ 32 = 0) := by
  refine ⟨?_, ?_, ?_⟩
  · intro h
    unfold modular_inverse
    rw [h]
  · exact modular_inverse_spec M
  · intro hodd
    have hw : M.p.headD 0 % 2 = 1 := by
      rw [← magVal_mod_two]
      exact hodd
    have hspec := modular_inverse_spec M hw
    have hcong : magVal M.p * modular_inverse M + 1
        ≡ M.p.headD 0 * modular_inverse M + 1 [MOD 2 ^ 32] := by
      have h1 : magVal M.p ≡ M.p.headD 0 [MOD 2 ^ 32] := magVal_mod_word M.p
      exact (h1.mul (Nat.ModEq.refl _)).add (Nat.ModEq.refl 1)
    have := hcong
    unfold Nat.ModEq at this
    omega

set_option maxRecDepth 8192 in
/-- Witness for C7 at a concrete modulus: `M = 3` (and `M' = 3 + 5·2³²`,
sharing the low word) — the loop output multiplied by 3 is `-1`
modulo `2 ^ 32`. -/
theorem C7_witness :
    modular_inverse ⟨1, [3]⟩ = modular_inverse ⟨1, [3, 5]⟩ ∧
    (3 * modular_inverse ⟨1, [3]⟩ + 1) % 2 ^ 32 = 0 ∧
    (magVal [3, 5] * modular_inverse ⟨1, [3, 5]⟩ + 1) % 2 ^ 32 = 0 :=
  ⟨(C7_modular_inverse_deterministic_and_correct ⟨1, [3]⟩ ⟨1, [3, 5]⟩).1 (by decide),
   (C7_modular_inverse_deterministic_and_correct ⟨1, [3]⟩ ⟨1, [3, 5]⟩).2.1 (by decide),
   (C7_modular_inverse_deterministic_and_correct ⟨1, [3, 5]⟩ ⟨1, [3]⟩).2.2 (by decide)⟩

/-- The operand block always holds exactly `num_words` words. -/
theorem mpi_to_mem_block_length (m : Mpi) (w : Nat) :
    (mpi_to_mem_block m w).length = w := by
  unfold mpi_to_mem_block
  simp only [List.length_append, List.length_take, List.length_replicate]
  omega

/-- Claim C8: marshalling round-trip.  Writing a bignum into an operand
block at width `w` (`mpi_to_mem_block`) and reading it back
(`mem_block_to_mpi`, allocator succeeding) at width `r ≤ w` (1) always
succeeds, (2) truncates the value to the low `r` words, and (3) when `r`
covers all significant words it reproduces the value and the significant
limbs exactly — so reading at the same width, or any larger width, is
lossless and zero-extending. -/
theorem C8_marshal_roundtrip (m x0 : Mpi) (w r : Nat)
    (hwf : WfWords m.p) (hr : r ≤ w) :
    (mem_block_to_mpi true x0 (mpi_to_mem_block m w) r).1 = 0 ∧
    magVal (mem_block_to_mpi true x0 (mpi_to_mem_block m w) r).2.p
      = magVal m.p % 2 ^ (32 * r) ∧
    (sigWords m.p ≤ r →
      magVal (mem_block_to_mpi true x0 (mpi_to_mem_block m w) r).2.p = magVal m.p ∧
      (mem_block_to_mpi true x0 (mpi_to_mem_block m w) r).2.p.take (sigWords m.p)
        = m.p.take (sigWords m.p)) := by
  have hread : mem_block_to_mpi true x0 (mpi_to_mem_block m w) r
      = (0, ⟨x0.s, (mpi_to_mem_block m w).take r
          ++ List.replicate (x0.p.length - r) 0⟩) := by
    unfold mem_block_to_mpi
    simp
  rw [hread]
  have hblkwf : WfWords (mpi_to_mem_block m w) := wfWords_block m w hwf
  have hval : magVal ((mpi_to_mem_block m w).take r
      ++ List.replicate (x0.p.length - r) 0) = magVal m.p % 2 ^ (32 * r) := by
    rw [magVal_append_zeros, magVal_take _ _ hblkwf, magVal_block_mod m w hwf,
      Nat.mod_mod_of_dvd _ (pow_dvd_pow 2 (by omega))]
  refine ⟨rfl, hval, ?_⟩
  intro hs
  constructor
  · rw [hval]
    apply Nat.mod_eq_of_lt
    calc magVal m.p < 2 ^ (32 * sigWords m.p) := magVal_lt_sig m.p hwf
    _ ≤ 2 ^ (32 * r) := Nat.pow_le_pow_right (by norm_num) (by omega)
  · have hlen : ((mpi_to_mem_block m w).take r).length = r := by
      rw [List.length_take, mpi_to_mem_block_length]
      omega
    have h1 : (((mpi_to_mem_block m w).take r)
        ++ List.replicate (x0.p.length - r) 0).take (sigWords m.p)
        = ((mpi_to_mem_block m w).take r).take (sigWords m.p) := by
      apply List.take_append_of_le_length
      omega
    have h2 : ((mpi_to_mem_block m w).take r).take (sigWords m.p)
        = (mpi_to_mem_block m w).take (sigWords m.p) := by
      rw [List.take_take]
      congr 1
      omega
    have hsl : sigWords m.p ≤ m.p.length := sigWords_le_length m.p
    have h3 : (mpi_to_mem_block m w).take (sigWords m.p)
        = m.p.take (sigWords m.p) := by
      unfold mpi_to_mem_block
      rw [List.take_append_of_le_length (by simp; omega), List.take_take]
      congr 1
      omega
    simp only [h1, h2, h3]

/-- Witness for C8 at a concrete bignum (two significant words, write
width 3, read width 2): the read succeeds, truncation is the identity
here, and the significant limbs survive the round trip. -/
theorem C8_witness :
    (mem_block_to_mpi true ⟨1, []⟩ (mpi_to_mem_block ⟨1, [5, 7]⟩ 3) 2).1 = 0 ∧
    magVal (mem_block_to_mpi true ⟨1, []⟩ (mpi_to_mem_block ⟨1, [5, 7]⟩ 3) 2).2.p
      = magVal [5, 7] % 2 ^ (32 * 2) ∧
    (sigWords [5, 7] ≤ 2 →
      magVal (mem_block_to_mpi true ⟨1, []⟩ (mpi_to_mem_block ⟨1, [5, 7]⟩ 3) 2).2.p
        = magVal [5, 7] ∧
      (mem_block_to_mpi true ⟨1, []⟩
          (mpi_to_mem_block ⟨1, [5, 7]⟩ 3) 2).2.p.take (sigWords [5, 7])
        = [5, 7].take (sigWords [5, 7])) :=
  C8_marshal_roundtrip ⟨1, [5, 7]⟩ ⟨1, []⟩ 3 2 (by unfold WfWords; decide) (by decide)

theorem sig_le_mulmod_num_words_M (X Y M : Mpi) :
    sigWords M.p ≤ esp_mpi_mulmod_num_words X Y M :=
  le_trans (le_max_left _ _) (le_max_left _ _)

theorem sig_le_mulmod_num_words_X (X Y M : Mpi) :
    sigWords X.p ≤ esp_mpi_mulmod_num_words X Y M :=
  le_trans (le_max_right _ _) (le_max_left _ _)

theorem sig_le_mulmod_num_words_Y (X Y M : Mpi) :
    sigWords Y.p ≤ esp_mpi_mulmod_num_words X Y M :=
  le_max_right _ _

/-- Claim C10: `esp_mpi_mul_mpi_mod` has no zero-operand guard — for any
call passing the width check with a positive modulus, the peripheral is
acquired; when `Y = 0` (bit length 0), the unsigned `size_t` expression
`y_bits - 1` wraps and the maximum 32-bit value is written to the
search-position register; the subtraction avoids the wrap exactly when
`Y ≠ 0`, in which case `y_bits - 1` is written unwrapped. -/
theorem C10_search_pos_wraps_on_zero (Z0 X Y M : Mpi) (ok : Bool)
    (hwfy : WfWords Y.p)
    (hw : esp_mpi_mulmod_num_words X Y M * 32 ≤ 4096) (hM : 0 < M.val) :
    (esp_mpi_mul_mpi_mod ok Z0 X Y M).hw_acquired = true ∧
    (magVal Y.p = 0 →
      (esp_mpi_mul_mpi_mod ok Z0 X Y M).search_pos = 2 ^ 32 - 1) ∧
    (magVal Y.p ≠ 0 →
      1 ≤ mbedtls_mpi_bitlen Y ∧
      (esp_mpi_mul_mpi_mod ok Z0 X Y M).search_pos = mbedtls_mpi_bitlen Y - 1) := by
  have hybits_le : mbedtls_mpi_bitlen Y ≤ 32 * sigWords Y.p :=
    mbedtls_mpi_bitlen_le Y
  have hy4096 : mbedtls_mpi_bitlen Y ≤ 4096 := by
    have := sig_le_mulmod_num_words_Y X Y M
    omega
  unfold esp_mpi_mul_mpi_mod
  rw [if_neg (by omega), if_neg (by omega)]
  refine ⟨rfl, ?_, ?_⟩
  · intro h0
    have hb : mbedtls_mpi_bitlen Y = 0 :=
      (bitlen_eq_zero_iff Y).mpr h0
    simp only [hb]
    norm_num
  · intro h0
    have hb : 1 ≤ mbedtls_mpi_bitlen Y := by
      rcases Nat.eq_zero_or_pos (mbedtls_mpi_bitlen Y) with hz | hp
      · exact absurd ((bitlen_eq_zero_iff Y).mp hz) h0
      · exact hp
    refine ⟨hb, ?_⟩
    simp only []
    have he : mbedtls_mpi_bitlen Y + (2 ^ 32 - 1)
        = (mbedtls_mpi_bitlen Y - 1) + 2 ^ 32 := by omega
    rw [he, Nat.add_mod_right]
    exact Nat.mod_eq_of_lt (by omega)

/-- Witness for C10: a zero `Y` writes `2³² - 1` to the search-position
register while the hardware still runs, and a non-zero `Y` writes
`bitlen(Y) - 1`. -/
theorem C10_witness :
    ((esp_mpi_mul_mpi_mod true ⟨1, []⟩ ⟨1, [2]⟩ ⟨1, [0]⟩ ⟨1, [5]⟩).hw_acquired = true ∧
      (esp_mpi_mul_mpi_mod true ⟨1, []⟩ ⟨1, [2]⟩ ⟨1, [0]⟩ ⟨1, [5]⟩).search_pos
        = 2 ^ 32 - 1) ∧
    (esp_mpi_mul_mpi_mod true ⟨1, []⟩ ⟨1, [2]⟩ ⟨1, [6]⟩ ⟨1, [5]⟩).search_pos
      = mbedtls_mpi_bitlen ⟨1, [6]⟩ - 1 := by
  have h1 := C10_search_pos_wraps_on_zero ⟨1, []⟩ ⟨1, [2]⟩ ⟨1, [0]⟩ ⟨1, [5]⟩ true
    (by unfold WfWords; decide) (by decide) (by decide)
  have h2 := C10_search_pos_wraps_on_zero ⟨1, []⟩ ⟨1, [2]⟩ ⟨1, [6]⟩ ⟨1, [5]⟩ true
    (by unfold WfWords; decide) (by decide) (by decide)
  exact ⟨⟨h1.1, h1.2.1 (by decide)⟩, (h2.2.2 (by decide)).2⟩

/-- Claim C5: input validation is fatal and touches no hardware.
`esp_mpi_mul_mpi_mod` rejects `num_words*32 > 4096` with
`MBEDTLS_ERR_MPI_NOT_ACCEPTABLE`; `mbedtls_mpi_exp_mod` rejects a
non-positive or even `M`, or a negative `Y`, with
`MBEDTLS_ERR_MPI_BAD_INPUT_DATA`; with a valid `M` it returns `Z = 1`
immediately when `Y = 0`, and otherwise rejects `num_words*32 > 4096`
with `MBEDTLS_ERR_MPI_NOT_ACCEPTABLE`.  In every rejected or degenerate
case the peripheral is never acquired. -/
theorem C5_validation_no_hardware (Z0 X Y M : Mpi) (ok : Bool) (Rc : Option Mpi) :
    (4096 < esp_mpi_mulmod_num_words X Y M * 32 →
      (esp_mpi_mul_mpi_mod ok Z0 X Y M).ret = MBEDTLS_ERR_MPI_NOT_ACCEPTABLE ∧
      (esp_mpi_mul_mpi_mod ok Z0 X Y M).hw_acquired = false ∧
      (esp_mpi_mul_mpi_mod ok Z0 X Y M).Z = Z0) ∧
    (M.val ≤ 0 ∨ M.p.headD 0 % 2 = 0 →
      (mbedtls_mpi_exp_mod ok Z0 X Y M Rc).ret = MBEDTLS_ERR_MPI_BAD_INPUT_DATA ∧
      (mbedtls_mpi_exp_mod ok Z0 X Y M Rc).hw_acquired = false) ∧
    (Y.val < 0 →
      (mbedtls_mpi_exp_mod ok Z0 X Y M Rc).ret = MBEDTLS_ERR_MPI_BAD_INPUT_DATA ∧
      (mbedtls_mpi_exp_mod ok Z0 X Y M Rc).hw_acquired = false) ∧
    (¬(M.val ≤ 0 ∨ M.p.headD 0 % 2 = 0) → Y.val = 0 → ok = true →
      (mbedtls_mpi_exp_mod ok Z0 X Y M Rc).ret = 0 ∧
      (mbedtls_mpi_exp_mod ok Z0 X Y M Rc).Z.val = 1 ∧
      (mbedtls_mpi_exp_mod ok Z0 X Y M Rc).hw_acquired = false) ∧
    (¬(M.val ≤ 0 ∨ M.p.headD 0 % 2 = 0) → ¬Y.val < 0 → Y.val ≠ 0 →
      4096 < mbedtls_exp_mod_num_words X Y M * 32 →
      (mbedtls_mpi_exp_mod ok Z0 X Y M Rc).ret = MBEDTLS_ERR_MPI_NOT_ACCEPTABLE ∧
      (mbedtls_mpi_exp_mod ok Z0 X Y M Rc).hw_acquired = false) := by
  refine ⟨?_, ?_, ?_, ?_, ?_⟩
  · intro h
    unfold esp_mpi_mul_mpi_mod
    rw [if_pos (by omega)]
    exact ⟨rfl, rfl, rfl⟩
  · intro h
    unfold mbedtls_mpi_exp_mod
    rw [if_pos h]
    exact ⟨rfl, rfl⟩
  · intro h
    unfold mbedtls_mpi_exp_mod
    by_cases hm : M.val ≤ 0 ∨ M.p.headD 0 % 2 = 0
    · rw [if_pos hm]
      exact ⟨rfl, rfl⟩
    · rw [if_neg hm, if_pos h]
      exact ⟨rfl, rfl⟩
  · intro hm hy hok
    subst hok
    unfold mbedtls_mpi_exp_mod
    rw [if_neg hm, if_neg (by omega), if_pos hy, if_pos (by simp)]
    refine ⟨rfl, ?_, rfl⟩
    unfold mpi_lset Mpi.val
    simp [magVal, magVal_replicate_zero]
  · intro hm hneg hzero hbig
    unfold mbedtls_mpi_exp_mod
    rw [if_neg hm, if_neg hneg, if_neg hzero, if_pos (by omega)]
    exact ⟨rfl, rfl⟩

set_option maxRecDepth 100000 in
/-- Witness for C5: each validation branch exercised at a concrete
input — an oversize operand for both entry points, an even modulus, a
negative exponent, and the `Y = 0` short-circuit. -/
theorem C5_witness :
    ((esp_mpi_mul_mpi_mod true ⟨1, []⟩ ⟨1, List.replicate 128 0 ++ [1]⟩ ⟨1, [1]⟩
        ⟨1, [1]⟩).ret = MBEDTLS_ERR_MPI_NOT_ACCEPTABLE ∧
      (esp_mpi_mul_mpi_mod true ⟨1, []⟩ ⟨1, List.replicate 128 0 ++ [1]⟩ ⟨1, [1]⟩
        ⟨1, [1]⟩).hw_acquired = false) ∧
    (mbedtls_mpi_exp_mod true ⟨1, []⟩ ⟨1, [2]⟩ ⟨1, [3]⟩ ⟨1, [4]⟩ none).ret
      = MBEDTLS_ERR_MPI_BAD_INPUT_DATA ∧
    (mbedtls_mpi_exp_mod true ⟨1, []⟩ ⟨1, [2]⟩ ⟨-1, [3]⟩ ⟨1, [5]⟩ none).ret
      = MBEDTLS_ERR_MPI_BAD_INPUT_DATA ∧
    ((mbedtls_mpi_exp_mod true ⟨1, []⟩ ⟨1, [2]⟩ ⟨1, [0]⟩ ⟨1, [5]⟩ none).Z.val = 1 ∧
      (mbedtls_mpi_exp_mod true ⟨1, []⟩ ⟨1, [2]⟩ ⟨1, [0]⟩ ⟨1, [5]⟩ none).hw_acquired
        = false) ∧
    (mbedtls_mpi_exp_mod true ⟨1, []⟩ ⟨1, List.replicate 128 0 ++ [1]⟩ ⟨1, [3]⟩
      ⟨1, [5]⟩ none).ret = MBEDTLS_ERR_MPI_NOT_ACCEPTABLE := by
  have h1 := (C5_validation_no_hardware ⟨1, []⟩ ⟨1, List.replicate 128 0 ++ [1]⟩
    ⟨1, [1]⟩ ⟨1, [1]⟩ true none).1 (by decide)
  have h2 := (C5_validation_no_hardware ⟨1, []⟩ ⟨1, [2]⟩ ⟨1, [3]⟩ ⟨1, [4]⟩
    true none).2.1 (by decide)
  have h3 := (C5_validation_no_hardware ⟨1, []⟩ ⟨1, [2]⟩ ⟨-1, [3]⟩ ⟨1, [5]⟩
    true none).2.2.1 (by decide)
  have h4 := (C5_validation_no_hardware ⟨1, []⟩ ⟨1, [2]⟩ ⟨1, [0]⟩ ⟨1, [5]⟩
    true none).2.2.2.1 (by decide) (by decide) rfl
  have h5 := (C5_validation_no_hardware ⟨1, []⟩ ⟨1, List.replicate 128 0 ++ [1]⟩
    ⟨1, [3]⟩ ⟨1, [5]⟩ true none).2.2.2.2 (by decide) (by decide) (by decide)
    (by decide)
  exact ⟨⟨h1.1, h1.2.1⟩, h2.1, h3.1, ⟨h4.2.1, h4.2.2⟩, h5.1⟩

set_option maxRecDepth 100000 in
/-- Claim C6 concerns error propagation from `mem_block_to_mpi`
(read_block).  Evidence of the code bug at a concrete failing input:
with an allocator that fails the grow, the read-back inside
`esp_mpi_mul_mpi_mod` does fail with `MBEDTLS_ERR_MPI_ALLOC_FAILED`
(first conjunct — the growth of a 0-limb `Z` to 1 limb is refused), yet
the operation returns 0 (success) and leaves `Z` untouched, because the
call at the read-back site discards the status.  The direct multiply
path of `mbedtls_mpi_mul_mpi`, by contrast, does propagate the same
error (last conjunct). -/
theorem C6_mulmod_discards_alloc_failure :
    (mem_block_to_mpi false (⟨1, []⟩ : Mpi) (natToWords 1 1) 1).1
      = MBEDTLS_ERR_MPI_ALLOC_FAILED ∧
    (esp_mpi_mul_mpi_mod false ⟨1, []⟩ ⟨1, [2]⟩ ⟨1, [3]⟩ ⟨1, [5]⟩).ret = 0 ∧
    (esp_mpi_mul_mpi_mod false ⟨1, []⟩ ⟨1, [2]⟩ ⟨1, [3]⟩ ⟨1, [5]⟩).Z
      = (⟨1, []⟩ : Mpi) ∧
    (mbedtls_mpi_mul_mpi_f 10 false ⟨1, []⟩ ⟨1, [2]⟩ ⟨1, [3]⟩).map
      (fun r => r.ret) = some MBEDTLS_ERR_MPI_ALLOC_FAILED := by
  decide

/-- Reduction of `esp_mpi_mul_mpi_mod` on the hardware path (width check
passed, positive modulus). -/
theorem esp_mpi_mul_mpi_mod_eq (ok : Bool) (Z0 X Y M : Mpi)
    (h1 : ¬ 4096 < esp_mpi_mulmod_num_words X Y M * 32) (h2 : ¬ M.val ≤ 0) :
    esp_mpi_mul_mpi_mod ok Z0 X Y M =
      ⟨0,
        (mem_block_to_mpi ok Z0
          (natToWords (esp_mpi_mulmod_num_words X Y M)
            (hw_mod_mult
              (magVal (mpi_to_mem_block M (esp_mpi_mulmod_num_words X Y M)))
              (magVal (mpi_to_mem_block X (esp_mpi_mulmod_num_words X Y M)))
              (magVal (mpi_to_mem_block Y (esp_mpi_mulmod_num_words X Y M)))
              (calculate_rinv M (esp_mpi_mulmod_num_words X Y M)
                % 2 ^ (32 * esp_mpi_mulmod_num_words X Y M))
              (esp_mpi_mulmod_num_words X Y M)))
          (mpi_words M)).2,
        true, (mbedtls_mpi_bitlen Y + (2 ^ 32 - 1)) % 2 ^ 32⟩ := by
  unfold esp_mpi_mul_mpi_mod
  rw [if_neg h1, if_neg h2]

/-- Claim C2: for non-negative `X`, `Y` and an odd positive modulus `M`
within the `num_words*32 ≤ 4096` ceiling (allocator succeeding, output
bignum with the usual non-negative sign limb), modular multiply returns
success and `Z = (X·Y) mod M`. -/
theorem C2_mulmod_correct (Z0 X Y M : Mpi)
    (hwx : WfWords X.p) (hwy : WfWords Y.p) (hwm : WfWords M.p)
    (hXs : X.s = 1) (hYs : Y.s = 1) (hMs : M.s = 1) (hZs : Z0.s = 1)
    (hModd : magVal M.p % 2 = 1)
    (hwidth : esp_mpi_mulmod_num_words X Y M * 32 ≤ 4096) :
    (esp_mpi_mul_mpi_mod true Z0 X Y M).ret = 0 ∧
    (esp_mpi_mul_mpi_mod true Z0 X Y M).Z.val = X.val * Y.val % M.val := by
  have hMpos : 0 < magVal M.p := by omega
  have hMvpos : 0 < M.val := by
    unfold Mpi.val
    rw [hMs, one_mul]
    exact_mod_cast hMpos
  have heq := esp_mpi_mul_mpi_mod_eq true Z0 X Y M (by omega) (by omega)
  rw [heq]
  refine ⟨rfl, ?_⟩
  set nw := esp_mpi_mulmod_num_words X Y M with hnw
  have hsigM : sigWords M.p ≤ nw := sig_le_mulmod_num_words_M X Y M
  have hsigX : sigWords X.p ≤ nw := sig_le_mulmod_num_words_X X Y M
  have hsigY : sigWords Y.p ≤ nw := sig_le_mulmod_num_words_Y X Y M
  have hMb : magVal (mpi_to_mem_block M nw) = magVal M.p := magVal_block M nw hsigM
  have hXb : magVal (mpi_to_mem_block X nw) = magVal X.p := magVal_block X nw hsigX
  have hYb : magVal (mpi_to_mem_block Y nw) = magVal Y.p := magVal_block Y nw hsigY
  have hMlt : magVal M.p < 2 ^ (32 * sigWords M.p) := magVal_lt_sig M.p hwm
  have hrv : calculate_rinv M nw % 2 ^ (32 * nw) = 2 ^ (64 * nw) % magVal M.p := by
    unfold calculate_rinv
    rw [show 2 * (nw * 32) = 64 * nw by ring]
    apply Nat.mod_eq_of_lt
    calc 2 ^ (64 * nw) % magVal M.p < magVal M.p := Nat.mod_lt _ hMpos
    _ < 2 ^ (32 * sigWords M.p) := hMlt
    _ ≤ 2 ^ (32 * nw) := Nat.pow_le_pow_right (by norm_num) (by omega)
  have hhw : hw_mod_mult (magVal (mpi_to_mem_block M nw))
      (magVal (mpi_to_mem_block X nw)) (magVal (mpi_to_mem_block Y nw))
      (calculate_rinv M nw % 2 ^ (32 * nw)) nw
      = magVal X.p * magVal Y.p % magVal M.p := by
    rw [hMb, hXb, hYb, hrv]
    exact hw_mod_mult_spec _ _ _ nw hModd
  have hvlt : magVal X.p * magVal Y.p % magVal M.p < 2 ^ (32 * sigWords M.p) :=
    lt_trans (Nat.mod_lt _ hMpos) hMlt
  have hread : mem_block_to_mpi true Z0
      (natToWords nw (hw_mod_mult (magVal (mpi_to_mem_block M nw))
        (magVal (mpi_to_mem_block X nw)) (magVal (mpi_to_mem_block Y nw))
        (calculate_rinv M nw % 2 ^ (32 * nw)) nw)) (mpi_words M)
      = (0, ⟨Z0.s,
          natToWords (sigWords M.p) (magVal X.p * magVal Y.p % magVal M.p)
            ++ List.replicate (Z0.p.length - sigWords M.p) 0⟩) := by
    unfold mem_block_to_mpi
    rw [if_pos (Or.inr rfl), hhw]
    unfold mpi_words
    rw [natToWords_take nw (sigWords M.p) _ (by omega)]
  rw [hread]
  unfold Mpi.val
  rw [hZs, hXs, hYs, hMs]
  simp only [one_mul]
  rw [magVal_append_zeros, magVal_natToWords,
    Nat.mod_eq_of_lt (lt_of_lt_of_le hvlt (Nat.pow_le_pow_right (by norm_num) le_rfl))]
  push_cast
  rfl

/-- Witness for C2 at the spec's own example: `X = 12345`, `Y = 67890`,
`M = 1000003` — the result is `(12345·67890) mod 1000003`. -/
theorem C2_witness :
    (esp_mpi_mul_mpi_mod true ⟨1, []⟩ ⟨1, [12345]⟩ ⟨1, [67890]⟩
      ⟨1, [1000003]⟩).ret = 0 ∧
    (esp_mpi_mul_mpi_mod true ⟨1, []⟩ ⟨1, [12345]⟩ ⟨1, [67890]⟩
      ⟨1, [1000003]⟩).Z.val
      = (⟨1, [12345]⟩ : Mpi).val * (⟨1, [67890]⟩ : Mpi).val
        % (⟨1, [1000003]⟩ : Mpi).val :=
  C2_mulmod_correct ⟨1, []⟩ ⟨1, [12345]⟩ ⟨1, [67890]⟩ ⟨1, [1000003]⟩
    (by unfold WfWords; decide) (by unfold WfWords; decide)
    (by unfold WfWords; decide) rfl rfl rfl rfl (by decide) (by decide)

/-- `mpiOfVal` carries the intended signed value whenever the magnitude
fits the requested limb count. -/
theorem mpiOfVal_val (v : Int) (w : Nat) (h : v.natAbs < 2 ^ (32 * w)) :
    (mpiOfVal v w).val = v := by
  unfold mpiOfVal Mpi.val
  simp only [magVal_natToWords, Nat.mod_eq_of_lt h]
  by_cases hv : v < 0
  · simp only [hv, if_true]
    omega
  · simp only [hv, if_false, one_mul]
    omega

/-- Reduction of `mbedtls_mpi_exp_mod` on the hardware path (valid odd
modulus, non-negative non-zero exponent, width check passed, no cached
`Rinv`). -/
theorem mbedtls_mpi_exp_mod_eq (ok : Bool) (Z0 X Y M : Mpi)
    (h1 : ¬(M.val ≤ 0 ∨ M.p.headD 0 % 2 = 0)) (h2 : ¬ Y.val < 0)
    (h3 : ¬ Y.val = 0) (h4 : ¬ 4096 < mbedtls_exp_mod_num_words X Y M * 32) :
    mbedtls_mpi_exp_mod ok Z0 X Y M none =
      (if X.s = -1 ∧ Y.p.headD 0 % 2 = 1 then
        ⟨0, mpi_add_mpi M ⟨-1,
          (mem_block_to_mpi ok Z0
            (natToWords (mbedtls_exp_mod_num_words X Y M)
              (hw_modexp
                (magVal (mpi_to_mem_block M (mbedtls_exp_mod_num_words X Y M)))
                (magVal (mpi_to_mem_block X (mbedtls_exp_mod_num_words X Y M)))
                (magVal (mpi_to_mem_block Y (mbedtls_exp_mod_num_words X Y M)))))
            (mpi_words M)).2.p⟩, true⟩
      else
        ⟨(mem_block_to_mpi ok Z0
            (natToWords (mbedtls_exp_mod_num_words X Y M)
              (hw_modexp
                (magVal (mpi_to_mem_block M (mbedtls_exp_mod_num_words X Y M)))
                (magVal (mpi_to_mem_block X (mbedtls_exp_mod_num_words X Y M)))
                (magVal (mpi_to_mem_block Y (mbedtls_exp_mod_num_words X Y M)))))
            (mpi_words M)).1,
          ⟨1, (mem_block_to_mpi ok Z0
            (natToWords (mbedtls_exp_mod_num_words X Y M)
              (hw_modexp
                (magVal (mpi_to_mem_block M (mbedtls_exp_mod_num_words X Y M)))
                (magVal (mpi_to_mem_block X (mbedtls_exp_mod_num_words X Y M)))
                (magVal (mpi_to_mem_block Y (mbedtls_exp_mod_num_words X Y M)))))
            (mpi_words M)).2.p⟩, true⟩) := by
  unfold mbedtls_mpi_exp_mod
  rw [if_neg h1, if_neg h2, if_neg h3, if_neg h4]

theorem sig_le_exp_num_words_M (X Y M : Mpi) :
    sigWords M.p ≤ mbedtls_exp_mod_num_words X Y M := le_max_left _ _

theorem sig_le_exp_num_words_X (X Y M : Mpi) :
    sigWords X.p ≤ mbedtls_exp_mod_num_words X Y M :=
  le_trans (le_max_left _ _) (le_max_right _ _)

theorem sig_le_exp_num_words_Y (X Y M : Mpi) :
    sigWords Y.p ≤ mbedtls_exp_mod_num_words X Y M :=
  le_trans (le_max_right _ _) (le_max_right _ _)

/-- Claim C3, amended: for an odd positive modulus, a non-negative
exponent within the width ceiling (allocator succeeding, no cached
`Rinv`): `Y = 0` yields `Z = 1` for any `X`; otherwise
`Z = X ^ Y mod M` in `[0, M)` — except in the corner case where `X` is
negative, `Y` is odd and `M` divides `X ^ Y`, in which case the sign
correction `Z := M - 0` returns `Z = M` instead of `0`. -/
theorem C3_expmod_correct_amended (Z0 X Y M : Mpi)
    (hwm : WfWords M.p)
    (hXsgn : X.s = 1 ∨ X.s = -1)
    (hYs : Y.s = 1) (hMs : M.s = 1)
    (hModd : magVal M.p % 2 = 1)
    (hwidth : mbedtls_exp_mod_num_words X Y M * 32 ≤ 4096) :
    (magVal Y.p = 0 →
      (mbedtls_mpi_exp_mod true Z0 X Y M none).ret = 0 ∧
      (mbedtls_mpi_exp_mod true Z0 X Y M none).Z.val = 1) ∧
    (magVal Y.p ≠ 0 →
      ¬(X.s = -1 ∧ magVal Y.p % 2 = 1
          ∧ magVal X.p ^ magVal Y.p % magVal M.p = 0) →
      (mbedtls_mpi_exp_mod true Z0 X Y M none).ret = 0 ∧
      (mbedtls_mpi_exp_mod true Z0 X Y M none).Z.val
        = X.val ^ magVal Y.p % M.val) ∧
    (magVal Y.p ≠ 0 →
      X.s = -1 ∧ magVal Y.p % 2 = 1
        ∧ magVal X.p ^ magVal Y.p % magVal M.p = 0 →
      (mbedtls_mpi_exp_mod true Z0 X Y M none).Z.val = M.val) := by
  have hMpos : 0 < magVal M.p := by omega
  have hMval : M.val = (magVal M.p : Int) := by
    unfold Mpi.val
    rw [hMs, one_mul]
  have hYval : Y.val = (magVal Y.p : Int) := by
    unfold Mpi.val
    rw [hYs, one_mul]
  have hheadM : M.p.headD 0 % 2 = 1 := by
    rw [← magVal_mod_two]
    exact hModd
  have hvalid : ¬(M.val ≤ 0 ∨ M.p.headD 0 % 2 = 0) := by
    push_neg
    constructor
    · rw [hMval]
      exact_mod_cast hMpos
    · omega
  set nw := mbedtls_exp_mod_num_words X Y M with hnwdef
  set mw := sigWords M.p with hmwdef
  have hMb : magVal (mpi_to_mem_block M nw) = magVal M.p :=
    magVal_block M nw (sig_le_exp_num_words_M X Y M)
  have hXb : magVal (mpi_to_mem_block X nw) = magVal X.p :=
    magVal_block X nw (sig_le_exp_num_words_X X Y M)
  have hYb : magVal (mpi_to_mem_block Y nw) = magVal Y.p :=
    magVal_block Y nw (sig_le_exp_num_words_Y X Y M)
  have hMlt : magVal M.p < 2 ^ (32 * mw) := magVal_lt_sig M.p hwm
  have hrawv : hw_modexp (magVal (mpi_to_mem_block M nw))
      (magVal (mpi_to_mem_block X nw)) (magVal (mpi_to_mem_block Y nw))
      = magVal X.p ^ magVal Y.p % magVal M.p := by
    rw [hMb, hXb, hYb]
    rfl
  have hrawlt : magVal X.p ^ magVal Y.p % magVal M.p < magVal M.p :=
    Nat.mod_lt _ hMpos
  have hread : mem_block_to_mpi true Z0
      (natToWords nw (hw_modexp (magVal (mpi_to_mem_block M nw))
        (magVal (mpi_to_mem_block X nw)) (magVal (mpi_to_mem_block Y nw))))
      (mpi_words M)
      = (0, ⟨Z0.s,
          natToWords mw (magVal X.p ^ magVal Y.p % magVal M.p)
            ++ List.replicate (Z0.p.length - mw) 0⟩) := by
    unfold mem_block_to_mpi
    rw [if_pos (Or.inr rfl), hrawv]
    unfold mpi_words
    rw [natToWords_take nw mw _ (sig_le_exp_num_words_M X Y M)]
  have hPval : magVal (natToWords mw (magVal X.p ^ magVal Y.p % magVal M.p)
      ++ List.replicate (Z0.p.length - mw) 0)
      = magVal X.p ^ magVal Y.p % magVal M.p := by
    rw [magVal_append_zeros, magVal_natToWords, Nat.mod_eq_of_lt (by omega)]
  refine ⟨?_, ?_, ?_⟩
  · intro he
    have hy0 : Y.val = 0 := by
      rw [hYval, he]
      rfl
    unfold mbedtls_mpi_exp_mod
    rw [if_neg hvalid, if_neg (by omega), if_pos hy0, if_pos (by simp)]
    refine ⟨rfl, ?_⟩
    unfold mpi_lset Mpi.val
    simp [magVal, magVal_replicate_zero]
  · intro he hexc
    have hy3 : ¬ Y.val = 0 := by
      rw [hYval]
      exact_mod_cast he
    have heq := mbedtls_mpi_exp_mod_eq true Z0 X Y M hvalid (by omega) hy3
      (by omega)
    rw [heq, hread]
    by_cases hneg : X.s = -1 ∧ Y.p.headD 0 % 2 = 1
    · have hodd : magVal Y.p % 2 = 1 := by
        rw [magVal_mod_two]
        exact hneg.2
      have hnd : magVal X.p ^ magVal Y.p % magVal M.p ≠ 0 :=
        fun h0 => hexc ⟨hneg.1, hodd, h0⟩
      rw [if_pos hneg]
      refine ⟨rfl, ?_⟩
      unfold mpi_add_mpi
      set r := magVal X.p ^ magVal Y.p % magVal M.p with hrdef
      have hZneg : (Mpi.mk (-1)
          (natToWords mw r ++ List.replicate (Z0.p.length - mw) 0)).val
          = -(r : Int) := by
        unfold Mpi.val
        rw [hPval]
        ring
      have hsum : M.val + (Mpi.mk (-1)
          (natToWords mw r ++ List.replicate (Z0.p.length - mw) 0)).val
          = (magVal M.p : Int) - (r : Int) := by
        rw [hZneg, hMval]
        ring
      have habs : ((magVal M.p : Int) - (r : Int)).natAbs
          < 2 ^ (32 * (M.p.length + (natToWords mw r
              ++ List.replicate (Z0.p.length - mw) 0).length + 1)) := by
        have h1 : sigWords M.p ≤ M.p.length := sigWords_le_length M.p
        have h2 : (2 : Nat) ^ (32 * mw) ≤ 2 ^ (32 * (M.p.length
            + (natToWords mw r ++ List.replicate (Z0.p.length - mw) 0).length
            + 1)) := Nat.pow_le_pow_right (by norm_num) (by omega)
        have h3 : ((magVal M.p : Int) - (r : Int)).natAbs ≤ magVal M.p := by
          omega
        omega
      rw [hsum, mpiOfVal_val _ _ habs, hMval]
      have hoddZ : Odd (magVal Y.p) := Nat.odd_iff.mpr hodd
      have hXval : X.val = -((magVal X.p : Nat) : Int) := by
        simp [Mpi.val, hneg.1]
      rw [hXval, Odd.neg_pow hoddZ]
      have hcast : ((magVal X.p : Nat) : Int) ^ magVal Y.p
          = ((magVal X.p ^ magVal Y.p : Nat) : Int) := by
        push_cast
        ring
      rw [hcast]
      have hdm := Nat.div_add_mod (magVal X.p ^ magVal Y.p) (magVal M.p)
      have hdmInt : (magVal M.p : Int)
            * (((magVal X.p ^ magVal Y.p) / magVal M.p : Nat) : Int)
          + ((magVal X.p ^ magVal Y.p % magVal M.p : Nat) : Int)
          = ((magVal X.p ^ magVal Y.p : Nat) : Int) := by
        exact_mod_cast hdm
      have hdecomp : -((magVal X.p ^ magVal Y.p : Nat) : Int)
          = ((magVal M.p : Int) - (r : Int))
            + (magVal M.p : Int)
              * (-(((magVal X.p ^ magVal Y.p) / magVal M.p : Nat) : Int) - 1) := by
        rw [hrdef]
        linarith [hdmInt]
      rw [hdecomp, Int.add_mul_emod_self_left]
      have hle : (0 : Int) ≤ (magVal M.p : Int) - (r : Int) := by
        have h5 : (r : Int) ≤ (magVal M.p : Int) := by
          exact_mod_cast le_of_lt hrawlt
        omega
      have hlt2 : (magVal M.p : Int) - (r : Int) < (magVal M.p : Int) := by
        have h5 : (0 : Int) < (r : Int) := by
          exact_mod_cast Nat.pos_of_ne_zero hnd
        omega
      rw [Int.emod_eq_of_lt hle hlt2]
    · rw [if_neg hneg]
      refine ⟨rfl, ?_⟩
      have hlhs : (Mpi.mk 1 (natToWords mw (magVal X.p ^ magVal Y.p % magVal M.p)
          ++ List.replicate (Z0.p.length - mw) 0)).val
          = ((magVal X.p ^ magVal Y.p % magVal M.p : Nat) : Int) := by
        simp [Mpi.val, hPval]
      rw [hlhs, hMval]
      rcases hXsgn with hx1 | hx1
      · have hXval : X.val = ((magVal X.p : Nat) : Int) := by
          simp [Mpi.val, hx1]
        rw [hXval]
        push_cast
        rfl
      · have heven : magVal Y.p % 2 = 0 := by
          have hh : ¬ Y.p.headD 0 % 2 = 1 := fun hcon => hneg ⟨hx1, hcon⟩
          rw [magVal_mod_two]
          omega
        have hevenZ : Even (magVal Y.p) := Nat.even_iff.mpr heven
        have hXval : X.val = -((magVal X.p : Nat) : Int) := by
          simp [Mpi.val, hx1]
        rw [hXval, Even.neg_pow hevenZ]
        push_cast
        rfl
  · intro he hdiv
    have hy3 : ¬ Y.val = 0 := by
      rw [hYval]
      exact_mod_cast he
    have heq := mbedtls_mpi_exp_mod_eq true Z0 X Y M hvalid (by omega) hy3
      (by omega)
    rw [heq, hread]
    have hneg : X.s = -1 ∧ Y.p.headD 0 % 2 = 1 := by
      refine ⟨hdiv.1, ?_⟩
      rw [← magVal_mod_two]
      exact hdiv.2.1
    rw [if_pos hneg]
    unfold mpi_add_mpi
    have hr0 : magVal X.p ^ magVal Y.p % magVal M.p = 0 := hdiv.2.2
    have hZneg : (Mpi.mk (-1)
        (natToWords mw (magVal X.p ^ magVal Y.p % magVal M.p)
          ++ List.replicate (Z0.p.length - mw) 0)).val = 0 := by
      unfold Mpi.val
      rw [hPval, hr0]
      ring
    have hsum : M.val + (Mpi.mk (-1)
        (natToWords mw (magVal X.p ^ magVal Y.p % magVal M.p)
          ++ List.replicate (Z0.p.length - mw) 0)).val = M.val := by
      rw [hZneg]
      ring
    have habs : (M.val).natAbs < 2 ^ (32 * (M.p.length
        + (natToWords mw (magVal X.p ^ magVal Y.p % magVal M.p)
            ++ List.replicate (Z0.p.length - mw) 0).length + 1)) := by
      have h1 : sigWords M.p ≤ M.p.length := sigWords_le_length M.p
      have h2 : (2 : Nat) ^ (32 * mw) ≤ 2 ^ (32 * (M.p.length
          + (natToWords mw (magVal X.p ^ magVal Y.p % magVal M.p)
              ++ List.replicate (Z0.p.length - mw) 0).length + 1)) :=
        Nat.pow_le_pow_right (by norm_num) (by omega)
      have h3 : (M.val).natAbs = magVal M.p := by
        rw [hMval]
        exact Int.natAbs_ofNat _
      omega
    rw [hsum, mpiOfVal_val _ _ habs]

set_option maxRecDepth 100000 in
/-- Counterexample to claim C3 as stated: at `X = -3`, `Y = 1`, `M = 3`
the sign rule produces `Z = M - 0 = 3`, which is neither
`X ^ Y mod M = 0` nor inside `[0, M)` — the negate-and-add-M correction
is wrong when `M` divides `X ^ Y`. -/
theorem C3_counterexample :
    (mbedtls_mpi_exp_mod true ⟨1, []⟩ ⟨-1, [3]⟩ ⟨1, [1]⟩ ⟨1, [3]⟩ none).Z.val
      = 3 ∧
    (⟨-1, [3]⟩ : Mpi).val ^ magVal [1] % (⟨1, [3]⟩ : Mpi).val = 0 ∧
    ¬ ((3 : Int) < (⟨1, [3]⟩ : Mpi).val) := by
  decide

set_option maxRecDepth 100000 in
/-- Witness for C3 (amended) at `X = -2`, `Y = 3`, `M = 5`: the driver
returns `(-2)^3 mod 5 = 2`, exercising the negative-odd sign
correction on a non-degenerate input. -/
theorem C3_witness :
    (mbedtls_mpi_exp_mod true ⟨1, []⟩ ⟨-1, [2]⟩ ⟨1, [3]⟩ ⟨1, [5]⟩ none).ret
      = 0 ∧
    (mbedtls_mpi_exp_mod true ⟨1, []⟩ ⟨-1, [2]⟩ ⟨1, [3]⟩ ⟨1, [5]⟩ none).Z.val
      = (⟨-1, [2]⟩ : Mpi).val ^ magVal [3] % (⟨1, [5]⟩ : Mpi).val :=
  (C3_expmod_correct_amended ⟨1, []⟩ ⟨-1, [2]⟩ ⟨1, [3]⟩ ⟨1, [5]⟩
    (by unfold WfWords; decide) (Or.inr rfl) rfl rfl (by decide)
    (by decide)).2.1 (by decide) (by decide)

/-- The all-ones modulus block holds `2 ^ (32·n) - 1`. -/
theorem magVal_failover_M_block (n : Nat) :
    magVal (failover_M_block n) = 2 ^ (32 * n) - 1 := by
  unfold failover_M_block
  induction n with
  | zero => simp [magVal]
  | succ n ih =>
    simp only [List.replicate_succ, magVal, ih]
    have h1 : (1 : Nat) ≤ 2 ^ (32 * n) := Nat.one_le_two_pow
    have h2 : (2 : Nat) ^ (32 * (n + 1)) = 2 ^ 32 * 2 ^ (32 * n) := by
      rw [← pow_add]
      congr 1
      ring
    omega

/-- The `Rinv` block written by the failover holds the value 1. -/
theorem magVal_failover_Rinv_block (n : Nat) :
    magVal (failover_Rinv_block n) = 1 := by
  unfold failover_Rinv_block
  simp [magVal, magVal_replicate_zero]

/-- Claim C4, amended: the failover path performs the Montgomery modular
multiply with artificial modulus `M = 2 ^ (32·n) - 1` where `n` is the
width passed to `mpi_mult_mpi_failover_mod_mult` — which is `z_words =
x_words + y_words`, not `num_words = max(x_words, y_words)` — with
`Mprime = 1` and `Rinv = 1`, and the magnitude read back is the exact
unreduced product `|X|·|Y|`. -/
theorem C4_failover_exact_product (Z0 X Y : Mpi) (n : Nat)
    (hwx : WfWords X.p) (hwy : WfWords Y.p)
    (hx1 : 1 ≤ sigWords X.p) (hy1 : 1 ≤ sigWords Y.p)
    (hn : sigWords X.p + sigWords Y.p ≤ n) :
    magVal (failover_M_block n) = 2 ^ (32 * n) - 1 ∧
    magVal (failover_Rinv_block n) = 1 ∧
    (mpi_mult_mpi_failover_mod_mult true Z0 X Y n).ret = 0 ∧
    magVal (mpi_mult_mpi_failover_mod_mult true Z0 X Y n).Z.p
      = magVal X.p * magVal Y.p := by
  have hn1 : 1 ≤ n := by omega
  have hXlt : magVal X.p < 2 ^ (32 * sigWords X.p) := magVal_lt_sig X.p hwx
  have hYlt : magVal Y.p < 2 ^ (32 * sigWords Y.p) := magVal_lt_sig Y.p hwy
  have hprod : magVal X.p * magVal Y.p < 2 ^ (32 * n) - 1 := by
    have hA : magVal X.p + 1 ≤ 2 ^ (32 * sigWords X.p) := hXlt
    have hB : magVal Y.p + 1 ≤ 2 ^ (32 * sigWords Y.p) := hYlt
    have hmul : (magVal X.p + 1) * (magVal Y.p + 1)
        ≤ 2 ^ (32 * sigWords X.p) * 2 ^ (32 * sigWords Y.p) :=
      Nat.mul_le_mul hA hB
    have hmul2 : magVal X.p * magVal Y.p + magVal X.p + magVal Y.p + 1
        ≤ 2 ^ (32 * sigWords X.p) * 2 ^ (32 * sigWords Y.p) := by
      have he : (magVal X.p + 1) * (magVal Y.p + 1)
          = magVal X.p * magVal Y.p + magVal X.p + magVal Y.p + 1 := by ring
      omega
    have hcomb : (2 : Nat) ^ (32 * sigWords X.p) * 2 ^ (32 * sigWords Y.p)
        = 2 ^ (32 * sigWords X.p + 32 * sigWords Y.p) := (pow_add 2 _ _).symm
    have hle : (2 : Nat) ^ (32 * sigWords X.p + 32 * sigWords Y.p)
        ≤ 2 ^ (32 * n) := Nat.pow_le_pow_right (by norm_num) (by omega)
    have h4 : (4 : Nat) ≤ 2 ^ (32 * sigWords X.p) * 2 ^ (32 * sigWords Y.p) := by
      have ha : (2 : Nat) ≤ 2 ^ (32 * sigWords X.p) := by
        calc (2 : Nat) = 2 ^ 1 := by norm_num
        _ ≤ 2 ^ (32 * sigWords X.p) :=
          Nat.pow_le_pow_right (by norm_num) (by omega)
      have hb : (2 : Nat) ≤ 2 ^ (32 * sigWords Y.p) := by
        calc (2 : Nat) = 2 ^ 1 := by norm_num
        _ ≤ 2 ^ (32 * sigWords Y.p) :=
          Nat.pow_le_pow_right (by norm_num) (by omega)
      calc (4 : Nat) = 2 * 2 := by norm_num
      _ ≤ 2 ^ (32 * sigWords X.p) * 2 ^ (32 * sigWords Y.p) :=
        Nat.mul_le_mul ha hb
    rcases Nat.eq_zero_or_pos (magVal X.p) with hx0 | hxp
    · rw [hx0, zero_mul]
      omega
    rcases Nat.eq_zero_or_pos (magVal Y.p) with hy0 | hyp
    · rw [hy0, mul_zero]
      omega
    revert hmul2
    generalize magVal X.p * magVal Y.p = P
    intro hmul2
    omega
  refine ⟨magVal_failover_M_block n, magVal_failover_Rinv_block n, rfl, ?_⟩
  unfold mpi_mult_mpi_failover_mod_mult
  have hXb : magVal (mpi_to_mem_block X n) = magVal X.p :=
    magVal_block X n (by omega)
  have hYb : magVal (mpi_to_mem_block Y n) = magVal Y.p :=
    magVal_block Y n (by omega)
  have hhw : hw_mod_mult (magVal (failover_M_block n))
      (magVal (mpi_to_mem_block X n)) (magVal (mpi_to_mem_block Y n))
      (magVal (failover_Rinv_block n)) n = magVal X.p * magVal Y.p := by
    rw [magVal_failover_M_block, magVal_failover_Rinv_block, hXb, hYb]
    exact hw_mod_mult_ones n _ _ hn1 hprod
  rw [hhw]
  unfold mem_block_to_mpi
  simp only [eq_self_iff_true, or_true, if_true]
  rw [magVal_append_zeros, natToWords_take n n _ le_rfl, magVal_natToWords]
  apply Nat.mod_eq_of_lt
  have h1 : (1 : Nat) ≤ 2 ^ (32 * n) := Nat.one_le_two_pow
  omega

/-- Witness for C4 (amended) at `X = 3`, `Y = 4`, width 2: the modulus
block is `2 ^ 64 - 1`, the `Rinv` block is 1, and the read-back
magnitude is exactly 12. -/
theorem C4_witness :
    magVal (failover_M_block 2) = 2 ^ (32 * 2) - 1 ∧
    magVal (failover_Rinv_block 2) = 1 ∧
    (mpi_mult_mpi_failover_mod_mult true ⟨1, []⟩ ⟨1, [3]⟩ ⟨1, [4]⟩ 2).ret = 0 ∧
    magVal (mpi_mult_mpi_failover_mod_mult true ⟨1, []⟩ ⟨1, [3]⟩ ⟨1, [4]⟩ 2).Z.p
      = magVal [3] * magVal [4] :=
  C4_failover_exact_product ⟨1, []⟩ ⟨1, [3]⟩ ⟨1, [4]⟩ 2
    (by unfold WfWords; decide) (by unfold WfWords; decide)
    (by decide) (by decide) (by decide)

set_option exponentiation.threshold 10000000 in
set_option maxRecDepth 100000 in
/-- Counterexample to claim C4 as stated: on the failover path with
`X = 2^2079` (65 significant words) and `Y = 2^31` (1 word) —
`num_words = max = 65`, `z_words = 66` — the code returns the exact
product `2^2110`, but a Montgomery modular multiply with the claim's
modulus `2^(num_words·32) - 1 = 2^2080 - 1` (`Rinv = 1`) would return
`2^30`: the artificial modulus is actually built at `z_words` width. -/
theorem C4_counterexample :
    (mbedtls_mpi_mul_mpi_f 3 true ⟨1, []⟩ ⟨1, List.replicate 64 0 ++ [2 ^ 31]⟩
      ⟨1, [2 ^ 31]⟩).map (fun r => magVal r.Z.p) = some (2 ^ 2110) ∧
    hw_mod_mult (2 ^ (32 * 65) - 1) (2 ^ 2079) (2 ^ 31) 1 65 = 2 ^ 30 ∧
    (2 ^ 30 : Nat) ≠ 2 ^ 2110 := by
  decide

set_option exponentiation.threshold 10000000 in
set_option maxRecDepth 100000 in
/-- Claim C1 (code bug evidence): at `X = -(2^2048)`, `Y = 2` — the
failover path, since `num_words = 65 > 64` and `z_words = 66 ≤ 128` —
the multiply returns `+2^2049` (magnitude right, sign lost: the
failover never writes `Z->s`, and the early return skips the sign
assignment of the direct path), while the exact product is
`-(2^2049)`. -/
theorem C1_failover_sign_lost :
    (mbedtls_mpi_mul_mpi_f 3 true ⟨1, []⟩ ⟨-1, List.replicate 64 0 ++ [1]⟩
      ⟨1, [2]⟩).map (fun r => r.Z.val) = some (((2 ^ 2049 : Nat)) : Int) ∧
    (⟨-1, List.replicate 64 0 ++ [1]⟩ : Mpi).val * (⟨1, [2]⟩ : Mpi).val
      = -(((2 ^ 2049 : Nat)) : Int) := by
  decide

/-- `mpi_mult_mpi_overlong` succeeds whenever both recursive multiplies
(on the two slices of `Y`) succeed. -/
theorem mpi_mult_mpi_overlong_isSome (recur : Mpi → Mpi → Mpi → Option MulResult)
    (Z X Y : Mpi) (yw zw : Nat)
    (h1 : (recur ⟨1, []⟩ X (mpi_mult_mpi_overlong_Yp Y yw)).isSome)
    (h2 : (recur Z X (mpi_mult_mpi_overlong_Ypp Y yw)).isSome) :
    (mpi_mult_mpi_overlong recur Z X Y yw zw).isSome := by
  rcases hsome1 : recur ⟨1, []⟩ X (mpi_mult_mpi_overlong_Yp Y yw) with _ | r1
  · rw [hsome1] at h1
    simp at h1
  · rcases hsome2 : recur Z X (mpi_mult_mpi_overlong_Ypp Y yw) with _ | r2
    · rw [hsome2] at h2
      simp at h2
    · simp only [mpi_mult_mpi_overlong, hsome1, hsome2]
      split_ifs <;> simp

/-- The slice views have at most `yw/2` resp. `yw - yw/2` limbs. -/
theorem overlong_Yp_words_le (Y : Mpi) (yw : Nat) :
    bits_to_words (mbedtls_mpi_bitlen (mpi_mult_mpi_overlong_Yp Y yw)) ≤ yw / 2 := by
  rw [bits_to_words_bitlen]
  calc sigWords (mpi_mult_mpi_overlong_Yp Y yw).p
      ≤ (mpi_mult_mpi_overlong_Yp Y yw).p.length := sigWords_le_length _
  _ ≤ yw / 2 := by
      simp only [mpi_mult_mpi_overlong_Yp, List.length_take]
      omega

theorem overlong_Ypp_words_le (Y : Mpi) (yw : Nat) :
    bits_to_words (mbedtls_mpi_bitlen (mpi_mult_mpi_overlong_Ypp Y yw))
      ≤ yw - yw / 2 := by
  rw [bits_to_words_bitlen]
  calc sigWords (mpi_mult_mpi_overlong_Ypp Y yw).p
      ≤ (mpi_mult_mpi_overlong_Ypp Y yw).p.length := sigWords_le_length _
  _ ≤ yw - yw / 2 := by
      simp only [mpi_mult_mpi_overlong_Ypp, List.length_take, List.length_drop]
      omega

theorem overlong_Yp_wf (Y : Mpi) (yw : Nat) (h : WfWords Y.p) :
    WfWords (mpi_mult_mpi_overlong_Yp Y yw).p := wfWords_take _ _ h

theorem overlong_Ypp_wf (Y : Mpi) (yw : Nat) (h : WfWords Y.p) :
    WfWords (mpi_mult_mpi_overlong_Ypp Y yw).p :=
  wfWords_take _ _ (wfWords_drop _ _ h)

/-- Fuel one more than the total significant word count of the two
operands always suffices: the fuelled multiply never runs out. -/
theorem mbedtls_mpi_mul_mpi_f_total :
    ∀ fuel ok Z0 X Y, WfWords X.p → WfWords Y.p →
      bits_to_words (mbedtls_mpi_bitlen X) + bits_to_words (mbedtls_mpi_bitlen Y)
        < fuel →
      (mbedtls_mpi_mul_mpi_f fuel ok Z0 X Y).isSome := by
  intro fuel
  induction fuel with
  | zero =>
    intro ok Z0 X Y _ _ h
    omega
  | succ fuel ih =>
    intro ok Z0 X Y hwx hwy hlt
    simp only [mbedtls_mpi_mul_mpi_f]
    split_ifs with h1 hz h2 h3 h4 h5 h6
    · simp
    · simp
    · simp
    · simp
    · simp
    · -- overlong, Y the longer operand
      apply mpi_mult_mpi_overlong_isSome
      · apply ih
        · exact hwx
        · exact overlong_Yp_wf Y _ hwy
        · have ha := overlong_Yp_words_le Y (bits_to_words (mbedtls_mpi_bitlen Y))
          omega
      · apply ih
        · exact hwx
        · exact overlong_Ypp_wf Y _ hwy
        · have ha := overlong_Ypp_words_le Y (bits_to_words (mbedtls_mpi_bitlen Y))
          omega
    · -- overlong, X the longer operand (operands swapped)
      apply mpi_mult_mpi_overlong_isSome
      · apply ih
        · exact hwy
        · exact overlong_Yp_wf X _ hwx
        · have ha := overlong_Yp_words_le X (bits_to_words (mbedtls_mpi_bitlen X))
          omega
      · apply ih
        · exact hwy
        · exact overlong_Ypp_wf X _ hwx
        · have ha := overlong_Ypp_words_le X (bits_to_words (mbedtls_mpi_bitlen X))
          omega
    · simp

/-- Claim C9: the recursive decomposition terminates.  For `y_words ≥ 2`
(always the case on the overlong path, where the longer operand exceeds
64 words) both storage-sharing views passed to the recursive calls are
strictly narrower than `y_words`; consequently any fuel exceeding the
total significant word count of the operands suffices, so the fuelled
embedding of `mbedtls_mpi_mul_mpi` never exhausts its fuel and the C
recursion bottoms out at the non-recursive hardware cases. -/
theorem C9_recursion_narrows_and_terminates (Y : Mpi) (y_words : Nat)
    (h2 : 2 ≤ y_words) :
    (mpi_mult_mpi_overlong_Yp Y y_words).p.length < y_words ∧
    (mpi_mult_mpi_overlong_Ypp Y y_words).p.length < y_words ∧
    ∀ fuel ok Z0 A B, WfWords A.p → WfWords B.p →
      bits_to_words (mbedtls_mpi_bitlen A) + bits_to_words (mbedtls_mpi_bitlen B)
        < fuel →
      (mbedtls_mpi_mul_mpi_f fuel ok Z0 A B).isSome := by
  refine ⟨?_, ?_,
    fun fuel ok Z0 A B hwa hwb hm =>
      mbedtls_mpi_mul_mpi_f_total fuel ok Z0 A B hwa hwb hm⟩
  · simp only [mpi_mult_mpi_overlong_Yp, List.length_take]
    omega
  · simp only [mpi_mult_mpi_overlong_Ypp, List.length_take, List.length_drop]
    omega

/-- Witness for C9: a two-word operand slices into two strictly
narrower one-word views, and fuel 3 already suffices for a one-word by
one-word multiply. -/
theorem C9_witness :
    (mpi_mult_mpi_overlong_Yp ⟨1, [7, 9]⟩ 2).p.length < 2 ∧
    (mpi_mult_mpi_overlong_Ypp ⟨1, [7, 9]⟩ 2).p.length < 2 ∧
    (mbedtls_mpi_mul_mpi_f 3 true ⟨1, []⟩ ⟨1, [5]⟩ ⟨1, [6]⟩).isSome := by
  have h := C9_recursion_narrows_and_terminates ⟨1, [7, 9]⟩ 2 (by decide)
  exact ⟨h.1, h.2.1, h.2.2 3 true ⟨1, []⟩ ⟨1, [5]⟩ ⟨1, [6]⟩
    (by unfold WfWords; decide) (by unfold WfWords; decide) (by decide)⟩
